import Mathlib

/-!
# Verification of the generational optimization engine in `God.hpp`

Shallow embedding of the orchestration engine: the generational loop of
`God::simulate`, the per-worker evaluation pipeline `Process<H>` (local
bounded top-k heap plus single-pass Welford statistics, merged into global
accumulators), the ordering policies `algoScoreSort`, `minScoreHeap`,
`maxScoreHeap`, and the termination policies `greedyComplete` and
`patientComplete`.

Individuals (`Algo*` pointers) are identified by natural-number ids; the
`gen()` operation hands out fresh ids from a counter.  Scores use exact
rational arithmetic in place of `double`.  Fallible operations (popping an
empty heap, indexing with a modulus of zero) return `Option`, with `none`
marking the undefined behaviour of the C++ code at that point.  The worker
threads are sequentialized in index order; the statistics-merge theorems
quantify over arbitrary merge orders separately.
-/

namespace Genetics

/-- Fitness outcome of evaluating one individual (`Processor::Score`). -/
structure Score where
  success : Bool
  score : ℚ
deriving DecidableEq

/-- An (individual, score) pair (`struct AlgoScore`); the individual is a
numeric id standing for the C++ `Algo*` pointer. -/
structure AlgoScore where
  algo : ℕ
  score : Score
deriving DecidableEq

/-- Online statistics accumulator: `(popM, popBar, popN)` — the sum of squared
deviations, the running mean and the count. -/
structure Stats where
  m : ℚ
  bar : ℚ
  n : ℕ
deriving DecidableEq

/-- `God::algoScoreSort`: the strict comparison handed to `max_element` when
picking the generation's best.  Equal success flags compare by numeric value;
otherwise the successful one is greater. -/
def algoScoreSort (lhs rhs : AlgoScore) : Bool :=
  let l := lhs.score
  let r := rhs.score
  if l.success = r.success then decide (l.score < r.score) else r.success

/-- `God::minScoreHeap`: three-way comparator, lower numeric value ranks
better among equal success; success dominates. -/
def minScoreHeap (lhs rhs : AlgoScore) : Int :=
  let l := lhs.score
  let r := rhs.score
  if !l.success && r.success then 1
  else if l.success && !r.success then -1
  else if l.score < r.score then -1
  else if l.score > r.score then 1
  else 0

/-- `God::maxScoreHeap`: three-way comparator, higher numeric value ranks
better among equal success; success dominates. -/
def maxScoreHeap (lhs rhs : AlgoScore) : Int :=
  let l := lhs.score
  let r := rhs.score
  if !l.success && r.success then 1
  else if l.success && !r.success then -1
  else if l.score < r.score then 1
  else if l.score > r.score then -1
  else 0

/-- `God::greedyComplete`: stop as soon as some successor succeeded. -/
def greedyComplete (successors : List AlgoScore) (_stepNum : ℕ) : Bool :=
  successors.any (fun as => as.score.success)

/-- `God::patientComplete`: never stop early. -/
def patientComplete (_successors : List AlgoScore) (_stepNum : ℕ) : Bool :=
  false

/-- The thread-count computation at the top of `God::simulate`:
`numThreads = populationSize / minThreadWorkloadSize`, capped at
`maxNumThreads`. -/
def numThreadsOf (populationSize minThreadWorkloadSize maxNumThreads : ℕ) : ℕ :=
  let t := populationSize / minThreadWorkloadSize
  if t > maxNumThreads then maxNumThreads else t

/-- The percentage-change computation of the report block
(`-(cur - prev) / prev * 100.0`); `none` marks the division-by-zero case
`prev = 0` that IEEE arithmetic would turn into an infinity or NaN. -/
def pctChange (prev cur : ℚ) : Option ℚ :=
  if prev = 0 then none else some (-(cur - prev) / prev * 100)

/-- Modelled from the spec: `Heap.hpp` is not among the sources.  Section 4.3
describes a fixed-capacity best-first retainer; ranked insertion into a
best-first sorted list realizes it: the new item is placed before the first
element it beats under the three-way comparator `H` (negative = left better). -/
def insertRanked (H : AlgoScore → AlgoScore → Int) (x : AlgoScore) :
    List AlgoScore → List AlgoScore
  | [] => [x]
  | y :: t => if H x y < 0 then x :: y :: t else y :: insertRanked H x t

/-- Modelled from the spec: the bounded top-k selector `Heap<AlgoScore, H>`,
kept as a best-first sorted list of at most `cap` retained elements. -/
structure Heap where
  cap : ℕ
  items : List AlgoScore
deriving DecidableEq

/-- Modelled from the spec: `Insert` adds unconditionally below capacity and
otherwise keeps only the `cap` best, discarding the worst. -/
def Heap.Insert (H : AlgoScore → AlgoScore → Int) (h : Heap) (x : AlgoScore) : Heap :=
  ⟨h.cap, (insertRanked H x h.items).take h.cap⟩

/-- Modelled from the spec: `n` successive `Pop()` calls, returning the popped
elements best-first; popping an empty heap is the underflow the C++ loops can
hit, surfaced as `none`. -/
def Heap.popN (h : Heap) : ℕ → Option (List AlgoScore × Heap)
  | 0 => some ([], h)
  | n + 1 =>
    match h.items with
    | [] => none
    | a :: t => (Heap.popN ⟨h.cap, t⟩ n).map (fun p => (a :: p.1, p.2))

/-- One Welford update, the loop body of `Process<H>`:
`delta = x - xBar; xBar += delta / k; xM += delta * (x - xBar)` with `k` the
1-based position inside the slice. -/
def welfordStep (st : Stats) (x : ℚ) : Stats :=
  let delta := x - st.bar
  let bar := st.bar + delta / ((st.n : ℚ) + 1)
  ⟨st.m + delta * (x - bar), bar, st.n + 1⟩

/-- A worker's single-pass statistics over its slice of scores. -/
def welfordList (xs : List ℚ) : Stats :=
  xs.foldl welfordStep ⟨0, 0, 0⟩

/-- The locked statistics merge of `Process<H>`: first worker copies its local
accumulator into the empty global one, later workers combine with the pairwise
formula.  `g` is the global accumulator, `w` the worker's local one. -/
def mergeStats (g w : Stats) : Stats :=
  if g.n = 0 then w
  else
    let delta := w.bar - g.bar
    let n : ℚ := (w.n : ℚ) + (g.n : ℚ)
    ⟨w.m + g.m + delta * delta * (w.n : ℚ) * (g.n : ℚ) / n,
     ((w.n : ℚ) * w.bar + (g.n : ℚ) * g.bar) / n,
     w.n + g.n⟩

/-- The scored pairs a worker produces while walking indices
`[start, stop)` of the population. -/
def scoreList (f : ℕ → Score) (pop : List ℕ) (start stop : ℕ) : List AlgoScore :=
  (List.range' start (stop - start)).map (fun idx => ⟨pop.getD idx 0, f (pop.getD idx 0)⟩)

/-- Slice start handed to worker `j`: `j * populationSize / numThreads`. -/
def sliceStart (P T j : ℕ) : ℕ := j * P / T

/-- Slice stop handed to worker `j`; the last worker absorbs the remainder. -/
def sliceStop (P T j : ℕ) : ℕ := if j = T - 1 then P else (j + 1) * P / T

/-- The worker body `Process<H>`: evaluate the slice into a local heap of
capacity `s` and local Welford statistics, then (under the mutex) merge the
statistics into the global accumulator and pop `s` elements from the local
heap into the global heap. -/
def Process (H : AlgoScore → AlgoScore → Int) (f : ℕ → Score) (pop : List ℕ)
    (start stop s : ℕ) (glob : Heap) (gst : Stats) : Option (Heap × Stats) :=
  match ((scoreList f pop start stop).foldl (Heap.Insert H) ⟨s, []⟩).popN s with
  | none => none
  | some (popped, _) =>
    some (popped.foldl (Heap.Insert H) glob,
          mergeStats gst (welfordList ((scoreList f pop start stop).map
            (fun as => as.score.score))))

/-- Workers `j, j+1, …` (`r` of them) run in index order against the shared
global heap and statistics. -/
def runWorkersAux (H : AlgoScore → AlgoScore → Int) (f : ℕ → Score) (pop : List ℕ)
    (P T s : ℕ) : ℕ → ℕ → Heap → Stats → Option (Heap × Stats)
  | 0, _, g, st => some (g, st)
  | r + 1, j, g, st =>
    match Process H f pop (sliceStart P T j) (sliceStop P T j) s g st with
    | none => none
    | some (g', st') => runWorkersAux H f pop P T s r (j + 1) g' st'

/-- One generation's fork-join evaluation: `T` workers over the freshly
flushed global heap of capacity `s` and zeroed statistics. -/
def runGenWorkers (H : AlgoScore → AlgoScore → Int) (f : ℕ → Score) (pop : List ℕ)
    (P T s : ℕ) : Option (Heap × Stats) :=
  runWorkersAux H f pop P T s T 0 ⟨s, []⟩ ⟨0, 0, 0⟩

/-- `std::max_element` with `God::algoScoreSort`: first maximal element of the
list, `none` on an empty range (where the C++ would dereference `end()`). -/
def maxElem : List AlgoScore → Option AlgoScore
  | [] => none
  | h :: t => some (t.foldl (fun acc x => if algoScoreSort acc x then x else acc) h)

/-- Evaluate a generation: run the workers, pop the global top `s` into
`algoscores`, and pick the generation's best via `max_element`. -/
def evalGeneration (H : AlgoScore → AlgoScore → Int) (f : ℕ → Score) (pop : List ℕ)
    (P T s : ℕ) : Option (List AlgoScore × AlgoScore × Stats) :=
  match runGenWorkers H f pop P T s with
  | none => none
  | some (g, st) =>
    match g.popN s with
    | none => none
    | some (asl, _) =>
      match maxElem asl with
      | none => none
      | some b => some (asl, b, st)

/-- Result of building a new population: the population itself, the
derivation log (parent id, child id) of every `gen()` call, the list of
individuals destroyed, and the next fresh id. -/
structure PopBuild where
  newpop : List ℕ
  parents : List (ℕ × ℕ)
  destroyed : List ℕ
  counter : ℕ
deriving DecidableEq

/-- Generation-1 seeding: `population[j] = seeds[j % numSeeds]->gen()`, then
every seed is deleted.  With no seeds and a nonzero population the index is a
modulo by zero — undefined behaviour, surfaced as `none`. -/
def initPopulation (seeds : List ℕ) (P c0 : ℕ) : Option PopBuild :=
  match seeds with
  | [] => if P = 0 then some ⟨[], [], [], c0⟩ else none
  | _ :: _ =>
    some ⟨(List.range P).map (fun j => c0 + j),
          (List.range P).map (fun j => (seeds.getD (j % seeds.length) 0, c0 + j)),
          seeds, c0 + P⟩

/-- The breeding step for generations ≥ 2: slot 0 keeps the previous best
individual itself; slot `j ≥ 1` holds `algoscores[j % successorSize]`'s
freshly derived child; every old population member other than the surviving
best is deleted. -/
def breedPopulation (P : ℕ) (best : AlgoScore) (succ : List AlgoScore)
    (oldPop : List ℕ) (c0 s : ℕ) : PopBuild :=
  ⟨(List.range P).map (fun j => if j = 0 then best.algo else c0 + (j - 1)),
   (List.range (P - 1)).map (fun k => ((succ.getD ((k + 1) % s) ⟨0, ⟨false, 0⟩⟩).algo, c0 + k)),
   oldPop.filter (fun a => decide (a ≠ best.algo)),
   c0 + (P - 1)⟩

/-- What the engine records per generation: the generation index, every
scored pair evaluated, the drained successor set, the selected best, the
merged statistics, and the two percentage-change-from-previous computations
of the report block. -/
structure TraceEntry where
  index : ℕ
  evaluated : List AlgoScore
  successors : List AlgoScore
  best : AlgoScore
  stats : Stats
  pctAvg : Option ℚ
  pctBest : Option ℚ
deriving DecidableEq

/-- One iteration of the generational loop, up to the termination check:
build the population (seed or breed), evaluate it, drain the successor set
and select the best. -/
def genStep (H : AlgoScore → AlgoScore → Int) (f : ℕ → Score) (seeds : List ℕ)
    (P s T : ℕ) (i : ℕ) (pop : List ℕ) (c : ℕ) (best? : Option AlgoScore)
    (succ : List AlgoScore) (pa pb : ℚ) : Option (TraceEntry × List ℕ × ℕ) :=
  match (if i = 1 then (initPopulation seeds P c).map (fun q => (q.newpop, q.counter))
         else best?.map (fun b => ((breedPopulation P b succ pop c s).newpop,
                                   (breedPopulation P b succ pop c s).counter))) with
  | none => none
  | some (pop', c') =>
    match evalGeneration H f pop' P T s with
    | none => none
    | some (asl, b, st) =>
      some (⟨i, pop'.map (fun a => ⟨a, f a⟩), asl, b, st,
             pctChange pa st.bar, pctChange pb b.score.score⟩, pop', c')

/-- The generational loop of `God::simulate`: `r` cycles remain, `i` is the
1-based generation index; on the termination policy firing the current best
is returned, otherwise after the last cycle `max_element` over the final
`algoscores` picks the winner. -/
def simLoop (H : AlgoScore → AlgoScore → Int) (C : List AlgoScore → ℕ → Bool)
    (f : ℕ → Score) (seeds : List ℕ) (P s T : ℕ) :
    ℕ → ℕ → List ℕ → ℕ → Option AlgoScore → List AlgoScore → ℚ → ℚ →
    List TraceEntry → Option (AlgoScore × List TraceEntry)
  | 0, _, _, _, _, succ, _, _, trace => (maxElem succ).map (fun w => (w, trace))
  | r + 1, i, pop, c, best?, succ, pa, pb, trace =>
    match genStep H f seeds P s T i pop c best? succ pa pb with
    | none => none
    | some (e, pop', c') =>
      if C e.successors e.index then some (e.best, trace ++ [e])
      else
        simLoop H C f seeds P s T r (i + 1) pop' c' (some e.best) e.successors
          e.stats.bar e.best.score.score (trace ++ [e])

/-- `God::simulate<H, C>`: run `numCycles` generations from the seeds.
Returns the winning scored individual together with the per-generation trace;
`none` marks a run whose C++ counterpart hits undefined behaviour. -/
def simulate (H : AlgoScore → AlgoScore → Int) (C : List AlgoScore → ℕ → Bool)
    (f : ℕ → Score) (seeds : List ℕ)
    (populationSize successorSize minThreadWorkloadSize maxNumThreads numCycles c0 : ℕ) :
    Option (AlgoScore × List TraceEntry) :=
  simLoop H C f seeds populationSize successorSize
    (numThreadsOf populationSize minThreadWorkloadSize maxNumThreads)
    numCycles 1 (List.replicate populationSize 0) c0 none
    (List.replicate successorSize ⟨0, ⟨false, 0⟩⟩) 0 0 []

/-! ## Exact closed form of the online statistics -/

/-- Closed form of the accumulator over a list of scores: mean `sum / n`,
sum of squared deviations `sumsq - sum ^ 2 / n`, count `n` (Lean's total
division `q / 0 = 0` makes the empty list come out as `(0, 0, 0)`). -/
def statsOf (xs : List ℚ) : Stats :=
  ⟨(xs.map (fun x => x ^ 2)).sum - xs.sum ^ 2 / (xs.length : ℚ),
   xs.sum / (xs.length : ℚ), xs.length⟩

lemma statsOf_nil : statsOf [] = ⟨0, 0, 0⟩ := by
  simp [statsOf]

lemma welfordStep_statsOf (xs : List ℚ) (x : ℚ) :
    welfordStep (statsOf xs) x = statsOf (xs ++ [x]) := by
  rcases eq_or_ne xs [] with h | h
  · subst h
    simp [welfordStep, statsOf]
  · have hnN : xs.length ≠ 0 := (List.length_pos.mpr h).ne'
    have hn : ((xs.length : ℕ) : ℚ) ≠ 0 := Nat.cast_ne_zero.mpr hnN
    have hn1 : ((xs.length : ℕ) : ℚ) + 1 ≠ 0 := by positivity
    simp only [welfordStep, statsOf, List.map_append, List.sum_append,
      List.length_append, List.map_cons, List.map_nil, List.sum_cons,
      List.sum_nil, List.length_cons, List.length_nil]
    rw [Stats.mk.injEq]
    refine ⟨?_, ?_, by omega⟩
    · push_cast
      field_simp
      ring
    · push_cast
      field_simp
      ring

lemma welfordList_eq_statsOf (xs : List ℚ) : welfordList xs = statsOf xs := by
  induction xs using List.reverseRecOn with
  | nil => simp [welfordList, statsOf_nil]
  | append_singleton ys y ih =>
    rw [welfordList, List.foldl_append, List.foldl_cons, List.foldl_nil,
      ← welfordList, ih, welfordStep_statsOf]

lemma mergeStats_statsOf (a b : List ℚ) :
    mergeStats (statsOf a) (statsOf b) = statsOf (a ++ b) := by
  rcases eq_or_ne a [] with ha | ha
  · subst ha
    simp [mergeStats, statsOf]
  · have hlaN : a.length ≠ 0 := (List.length_pos.mpr ha).ne'
    have hla : ((a.length : ℕ) : ℚ) ≠ 0 := Nat.cast_ne_zero.mpr hlaN
    rcases eq_or_ne b [] with hb | hb
    · subst hb
      simp only [mergeStats, statsOf, List.length_nil, List.map_nil,
        List.sum_nil, List.append_nil, Nat.cast_zero]
      rw [if_neg hlaN, Stats.mk.injEq]
      refine ⟨?_, ?_, by omega⟩
      · field_simp
      · field_simp
    · have hlbN : b.length ≠ 0 := (List.length_pos.mpr hb).ne'
      have hlb : ((b.length : ℕ) : ℚ) ≠ 0 := Nat.cast_ne_zero.mpr hlbN
      have hlab : ((a.length : ℕ) : ℚ) + ((b.length : ℕ) : ℚ) ≠ 0 := by
        have h1 : (0 : ℚ) < (a.length : ℚ) :=
          lt_of_le_of_ne (by positivity) (Ne.symm hla)
        have h2 : (0 : ℚ) ≤ (b.length : ℚ) := by positivity
        nlinarith
      simp only [mergeStats, statsOf, List.map_append, List.sum_append,
        List.length_append]
      rw [if_neg hlaN, Stats.mk.injEq]
      refine ⟨?_, ?_, by omega⟩
      · push_cast
        field_simp
        ring
      · push_cast
        field_simp
        ring

lemma foldl_mergeStats_statsOf (acc : List ℚ) (ss : List (List ℚ)) :
    (ss.map welfordList).foldl mergeStats (statsOf acc) = statsOf (acc ++ ss.flatten) := by
  induction ss generalizing acc with
  | nil => simp
  | cons sHead sTail ih =>
    simp only [List.map_cons, List.foldl_cons, List.flatten_cons]
    rw [welfordList_eq_statsOf, mergeStats_statsOf, ih, List.append_assoc]

lemma statsOf_perm {a b : List ℚ} (h : a.Perm b) : statsOf a = statsOf b := by
  simp [statsOf, h.sum_eq, h.length_eq, (h.map fun x => x ^ 2).sum_eq]

/-! ## Properties of the selection ordering -/

lemma algoScoreSort_irrefl (a : AlgoScore) : algoScoreSort a a = false := by
  simp [algoScoreSort]

lemma algoScoreSort_trans {a b c : AlgoScore} (h1 : algoScoreSort a b = true)
    (h2 : algoScoreSort b c = true) : algoScoreSort a c = true := by
  rcases a with ⟨aa, ⟨asu, av⟩⟩
  rcases b with ⟨ba, ⟨bsu, bv⟩⟩
  rcases c with ⟨ca, ⟨csu, cv⟩⟩
  cases asu <;> cases bsu <;> cases csu <;>
    simp_all [algoScoreSort] <;> linarith

lemma algoScoreSort_not_trans {a b c : AlgoScore} (h1 : algoScoreSort a b = false)
    (h2 : algoScoreSort b c = false) : algoScoreSort a c = false := by
  rcases a with ⟨aa, ⟨asu, av⟩⟩
  rcases b with ⟨ba, ⟨bsu, bv⟩⟩
  rcases c with ⟨ca, ⟨csu, cv⟩⟩
  cases asu <;> cases bsu <;> cases csu <;>
    simp_all [algoScoreSort, not_lt] <;> linarith

/-- The claim's "outranks" relation, spelled out: success beats non-success;
among equal success the higher numeric value wins.  Not being outranked by
`x` is exactly `algoScoreSort b x = false`. -/
lemma algoScoreSort_eq_false_iff_not_outranks (b x : AlgoScore) :
    algoScoreSort b x = false ↔
      ¬ ((x.score.success = true ∧ b.score.success = false) ∨
         (x.score.success = b.score.success ∧ b.score.score < x.score.score)) := by
  rcases b with ⟨ba, ⟨bsu, bv⟩⟩
  rcases x with ⟨xa, ⟨xsu, xv⟩⟩
  cases bsu <;> cases xsu <;> simp_all [algoScoreSort, not_lt]

/-- The maximizing heap comparator ranks `x` strictly better than `y`
exactly when `y` is `algoScoreSort`-below `x`. -/
lemma maxScoreHeap_neg_iff (x y : AlgoScore) :
    maxScoreHeap x y < 0 ↔ algoScoreSort y x = true := by
  rcases x with ⟨xa, ⟨xsu, xv⟩⟩
  rcases y with ⟨ya, ⟨ysu, yv⟩⟩
  rcases lt_trichotomy xv yv with h | h | h
  · cases xsu <;> cases ysu <;> simp_all [maxScoreHeap, algoScoreSort, h.asymm]
  · subst h
    cases xsu <;> cases ysu <;> simp [maxScoreHeap, algoScoreSort]
  · cases xsu <;> cases ysu <;> simp_all [maxScoreHeap, algoScoreSort, h.asymm]

/-- `b` is not outranked by any member of `S` under the selection order. -/
def IsBest (S : List AlgoScore) (b : AlgoScore) : Prop :=
  ∀ x ∈ S, algoScoreSort b x = false

lemma isBest_nil (b : AlgoScore) : IsBest [] b := by
  intro x hx
  simp at hx

lemma isBest_extend {S : List AlgoScore} {b m : AlgoScore} (hbm : algoScoreSort b m = false)
    (hm : IsBest S m) : IsBest S b :=
  fun x hx => algoScoreSort_not_trans hbm (hm x hx)

lemma isBest_append {S1 S2 : List AlgoScore} {b : AlgoScore} (h1 : IsBest S1 b)
    (h2 : IsBest S2 b) : IsBest (S1 ++ S2) b := by
  intro x hx
  rcases List.mem_append.mp hx with h | h
  · exact h1 x h
  · exact h2 x h

lemma maxElem_foldl_spec (t : List AlgoScore) (acc : AlgoScore) :
    (t.foldl (fun a x => if algoScoreSort a x then x else a) acc) ∈ acc :: t ∧
      IsBest (acc :: t) (t.foldl (fun a x => if algoScoreSort a x then x else a) acc) := by
  induction t generalizing acc with
  | nil =>
    refine ⟨by simp, ?_⟩
    intro x hx
    simp only [List.foldl_nil, List.mem_singleton] at hx ⊢
    rw [hx]
    exact algoScoreSort_irrefl acc
  | cons y t ih =>
    simp only [List.foldl_cons]
    by_cases hy : algoScoreSort acc y = true
    · rw [if_pos hy]
      obtain ⟨hmem, hbest⟩ := ih y
      refine ⟨?_, ?_⟩
      · rcases List.mem_cons.mp hmem with h | h
        · simp [h]
        · simp [List.mem_cons, h]
      · intro x hx
        rcases List.mem_cons.mp hx with h | h
        · subst h
          have hfy : algoScoreSort (t.foldl (fun a x => if algoScoreSort a x then x else a) y) y = false :=
            hbest y (List.mem_cons_self y t)
          by_contra hc
          have hfx : algoScoreSort (t.foldl (fun a x => if algoScoreSort a x then x else a) y) x = true := by
            revert hc
            cases (algoScoreSort (t.foldl (fun a x => if algoScoreSort a x then x else a) y) x) <;> simp
          have := algoScoreSort_trans hfx hy
          rw [this] at hfy
          cases hfy
        · exact hbest x h
    · have hyf : algoScoreSort acc y = false := by
        revert hy
        cases (algoScoreSort acc y) <;> simp
      rw [if_neg (by simp [hyf])]
      obtain ⟨hmem, hbest⟩ := ih acc
      refine ⟨?_, ?_⟩
      · rcases List.mem_cons.mp hmem with h | h
        · simp [h]
        · simp [List.mem_cons, h]
      · intro x hx
        rcases List.mem_cons.mp hx with h | h
        · rw [h]
          exact hbest acc (List.mem_cons_self acc t)
        · rcases List.mem_cons.mp h with h' | h'
          · subst h'
            have hacc : algoScoreSort (t.foldl (fun a x => if algoScoreSort a x then x else a) acc) acc = false :=
              hbest acc (List.mem_cons_self acc t)
            exact algoScoreSort_not_trans hacc hyf
          · exact hbest x (List.mem_cons_of_mem acc h')

lemma maxElem_spec {l : List AlgoScore} {m : AlgoScore} (h : maxElem l = some m) :
    m ∈ l ∧ IsBest l m := by
  cases l with
  | nil => cases h
  | cons a t =>
    simp only [maxElem, Option.some.injEq] at h
    subst h
    exact maxElem_foldl_spec t a

/-! ## Heap lemmas -/

lemma insertRanked_length (H : AlgoScore → AlgoScore → Int) (x : AlgoScore)
    (l : List AlgoScore) : (insertRanked H x l).length = l.length + 1 := by
  induction l with
  | nil => rfl
  | cons y t ih =>
    simp only [insertRanked]
    split
    · simp
    · simp [ih]

lemma mem_insertRanked {H : AlgoScore → AlgoScore → Int} {x y : AlgoScore}
    {l : List AlgoScore} : y ∈ insertRanked H x l ↔ y = x ∨ y ∈ l := by
  induction l with
  | nil => simp [insertRanked]
  | cons z t ih =>
    simp only [insertRanked]
    split
    · simp [List.mem_cons]
    · simp only [List.mem_cons, ih]
      tauto

lemma Insert_cap (H : AlgoScore → AlgoScore → Int) (h : Heap) (x : AlgoScore) :
    (Heap.Insert H h x).cap = h.cap := rfl

lemma mem_Insert {H : AlgoScore → AlgoScore → Int} {h : Heap} {x y : AlgoScore}
    (hy : y ∈ (Heap.Insert H h x).items) : y = x ∨ y ∈ h.items :=
  mem_insertRanked.mp (List.take_subset _ _ hy)

lemma Insert_items_length {H : AlgoScore → AlgoScore → Int} {h : Heap} (x : AlgoScore) :
    (Heap.Insert H h x).items.length = min (h.items.length + 1) h.cap := by
  simp [Heap.Insert, insertRanked_length, Nat.min_comm]

lemma foldl_Insert_cap (H : AlgoScore → AlgoScore → Int) (L : List AlgoScore) (h : Heap) :
    (L.foldl (Heap.Insert H) h).cap = h.cap := by
  induction L generalizing h with
  | nil => rfl
  | cons x t ih => simp [List.foldl_cons, ih, Insert_cap]

lemma mem_foldl_Insert {H : AlgoScore → AlgoScore → Int} {L : List AlgoScore} {h : Heap}
    {y : AlgoScore} (hy : y ∈ (L.foldl (Heap.Insert H) h).items) :
    y ∈ h.items ∨ y ∈ L := by
  induction L generalizing h with
  | nil => exact Or.inl hy
  | cons x t ih =>
    simp only [List.foldl_cons] at hy
    rcases ih hy with h1 | h1
    · rcases mem_Insert h1 with h2 | h2
      · exact Or.inr (by simp [h2])
      · exact Or.inl h2
    · exact Or.inr (List.mem_cons_of_mem x h1)

lemma foldl_Insert_length {H : AlgoScore → AlgoScore → Int} {L : List AlgoScore} {h : Heap}
    (hle : h.items.length ≤ h.cap) :
    (L.foldl (Heap.Insert H) h).items.length = min (h.items.length + L.length) h.cap := by
  induction L generalizing h with
  | nil => simp [Nat.min_eq_left hle]
  | cons x t ih =>
    simp only [List.foldl_cons]
    have hle' : (Heap.Insert H h x).items.length ≤ (Heap.Insert H h x).cap := by
      rw [Insert_items_length x, Insert_cap]
      exact Nat.min_le_right _ _
    rw [ih hle', Insert_items_length x, Insert_cap]
    simp only [List.length_cons]
    omega

lemma popN_spec {h : Heap} {n : ℕ} {l : List AlgoScore} {h' : Heap}
    (hp : h.popN n = some (l, h')) :
    l = h.items.take n ∧ h'.items = h.items.drop n ∧ h'.cap = h.cap ∧ l.length = n := by
  induction n generalizing h l h' with
  | zero =>
    simp only [Heap.popN, Option.some.injEq] at hp
    obtain ⟨rfl, rfl⟩ := Prod.mk.injEq .. ▸ hp
    simp
  | succ n ih =>
    simp only [Heap.popN] at hp
    cases hi : h.items with
    | nil => rw [hi] at hp; cases hp
    | cons a t =>
      rw [hi] at hp
      simp only [Option.map_eq_some'] at hp
      obtain ⟨⟨l1, h1⟩, hrec, heq⟩ := hp
      obtain ⟨hl1, hi1, hc1, hlen1⟩ := ih hrec
      simp only [Prod.mk.injEq] at heq
      obtain ⟨heql, heqh⟩ := heq
      subst heql
      subst heqh
      simp only [hi, List.take_succ_cons, List.drop_succ_cons]
      exact ⟨by rw [hl1], by rw [hi1], hc1, by simp [hlen1]⟩

lemma popN_isSome {h : Heap} {n : ℕ} (hn : n ≤ h.items.length) :
    ∃ l h', h.popN n = some (l, h') := by
  induction n generalizing h with
  | zero => exact ⟨[], h, rfl⟩
  | succ n ih =>
    cases hi : h.items with
    | nil => rw [hi] at hn; simp at hn
    | cons a t =>
      have ht : n ≤ (Heap.mk h.cap t).items.length := by
        rw [hi] at hn
        simpa using Nat.le_of_succ_le_succ hn
      obtain ⟨l, h', hrec⟩ := ih ht
      exact ⟨a :: l, h', by simp [Heap.popN, hi, hrec]⟩

lemma popN_none {h : Heap} {n : ℕ} (hn : h.items.length < n) : h.popN n = none := by
  induction n generalizing h with
  | zero => simp at hn
  | succ n ih =>
    cases hi : h.items with
    | nil => simp [Heap.popN, hi]
    | cons a t =>
      have ht : (Heap.mk h.cap t).items.length < n := by
        rw [hi] at hn
        simpa using Nat.lt_of_succ_lt_succ hn
      simp [Heap.popN, hi, ih ht]

/-- The heap's top element (when it exists) is not outranked by anything the
heap has seen; an empty heap has seen nothing.  Specialized to the
maximizing comparator. -/
def HeadBest (h : Heap) (S : List AlgoScore) : Prop :=
  match h.items with
  | [] => S = []
  | b :: _ => IsBest S b

lemma headBest_insert {h : Heap} {S : List AlgoScore} {x : AlgoScore}
    (hcap : 1 ≤ h.cap) (hb : HeadBest h S) :
    HeadBest (Heap.Insert maxScoreHeap h x) (S ++ [x]) := by
  obtain ⟨m, hm⟩ : ∃ m, h.cap = m + 1 := ⟨h.cap - 1, by omega⟩
  cases hi : h.items with
  | nil =>
    have hS : S = [] := by
      unfold HeadBest at hb
      rw [hi] at hb
      exact hb
    subst hS
    unfold HeadBest
    simp only [Heap.Insert, hi, insertRanked, hm, List.take_succ_cons, List.take_nil]
    intro z hz
    simp only [List.nil_append, List.mem_singleton] at hz
    rw [hz]
    exact algoScoreSort_irrefl x
  | cons b t =>
    have hbB : IsBest S b := by
      unfold HeadBest at hb
      rw [hi] at hb
      exact hb
    unfold HeadBest
    simp only [Heap.Insert, hi, insertRanked]
    by_cases hc : maxScoreHeap x b < 0
    · rw [if_pos hc]
      have hbx : algoScoreSort b x = true := (maxScoreHeap_neg_iff x b).mp hc
      simp only [hm, List.take_succ_cons]
      intro z hz
      rcases List.mem_append.mp hz with h1 | h1
      · by_contra hcon
        have hxz : algoScoreSort x z = true := by
          revert hcon
          cases (algoScoreSort x z) <;> simp
        have := algoScoreSort_trans hbx hxz
        rw [hbB z h1] at this
        cases this
      · simp only [List.mem_singleton] at h1
        rw [h1]
        exact algoScoreSort_irrefl x
    · rw [if_neg hc]
      have hbx : algoScoreSort b x = false := by
        have := (maxScoreHeap_neg_iff x b).not.mp hc
        revert this
        cases (algoScoreSort b x) <;> simp
      simp only [hm, List.take_succ_cons]
      intro z hz
      rcases List.mem_append.mp hz with h1 | h1
      · exact hbB z h1
      · simp only [List.mem_singleton] at h1
        rw [h1]
        exact hbx

lemma headBest_foldl {h : Heap} {S : List AlgoScore} {L : List AlgoScore}
    (hcap : 1 ≤ h.cap) (hb : HeadBest h S) :
    HeadBest (L.foldl (Heap.Insert maxScoreHeap) h) (S ++ L) := by
  induction L generalizing h S with
  | nil => simpa using hb
  | cons x t ih =>
    simp only [List.foldl_cons]
    have := ih (h := Heap.Insert maxScoreHeap h x) (S := S ++ [x])
      (by rw [Insert_cap]; exact hcap) (headBest_insert hcap hb)
    simpa using this

lemma isBest_of_append_left {S1 S2 : List AlgoScore} {b : AlgoScore}
    (h : IsBest (S1 ++ S2) b) : IsBest S1 b :=
  fun x hx => h x (List.mem_append_left S2 hx)

lemma headBest_empty (s : ℕ) : HeadBest ⟨s, []⟩ [] := by
  unfold HeadBest
  rfl

/-! ## Slices, tiling and the worker pipeline -/

lemma scoreList_length (f : ℕ → Score) (pop : List ℕ) (a b : ℕ) :
    (scoreList f pop a b).length = b - a := by
  simp [scoreList]

lemma mem_scoreList {f : ℕ → Score} {pop : List ℕ} {a b : ℕ} {x : AlgoScore}
    (hx : x ∈ scoreList f pop a b) :
    ∃ idx, a ≤ idx ∧ idx < a + (b - a) ∧ x = ⟨pop.getD idx 0, f (pop.getD idx 0)⟩ := by
  obtain ⟨idx, hmem, rfl⟩ := List.mem_map.mp hx
  exact ⟨idx, (List.mem_range'_1.mp hmem).1, (List.mem_range'_1.mp hmem).2, rfl⟩

lemma scoreList_subset {f : ℕ → Score} {pop : List ℕ} {a b P : ℕ} {x : AlgoScore}
    (hab : a + (b - a) ≤ P) (hx : x ∈ scoreList f pop a b) :
    x ∈ scoreList f pop 0 P := by
  obtain ⟨idx, h1, h2, rfl⟩ := mem_scoreList hx
  refine List.mem_map.mpr ⟨idx, ?_, rfl⟩
  rw [List.mem_range'_1]
  omega

lemma scoreList_append (f : ℕ → Score) (pop : List ℕ) {a b c : ℕ} (hab : a ≤ b)
    (hbc : b ≤ c) :
    scoreList f pop a b ++ scoreList f pop b c = scoreList f pop a c := by
  unfold scoreList
  rw [← List.map_append]
  congr 1
  have h1 : b = a + (b - a) := by omega
  have h2 : (c - b) + (b - a) = c - a := by omega
  calc List.range' a (b - a) ++ List.range' b (c - b)
      = List.range' a (b - a) ++ List.range' (a + (b - a)) (c - b) := by rw [← h1]
    _ = List.range' a ((c - b) + (b - a)) := List.range'_append_1 a (b - a) (c - b)
    _ = List.range' a (c - a) := by rw [h2]

lemma scoreList_eq_map (f : ℕ → Score) (pop : List ℕ) :
    scoreList f pop 0 pop.length = pop.map (fun a => ⟨a, f a⟩) := by
  apply List.ext_getElem?
  intro i
  by_cases hi : i < pop.length
  · unfold scoreList
    rw [List.getElem?_map, List.getElem?_map,
      List.getElem?_range' 0 1 (by simpa using hi), List.getElem?_eq_getElem hi]
    simp only [Option.map_some']
    have hg : pop.getD (0 + 1 * i) 0 = pop[i] := by
      simp [List.getD_eq_getElem?_getD, List.getElem?_eq_getElem hi]
    rw [hg]
  · have h1 : (scoreList f pop 0 pop.length).length ≤ i := by
      rw [scoreList_length]
      omega
    have h2 : (pop.map (fun a => (⟨a, f a⟩ : AlgoScore))).length ≤ i := by
      rw [List.length_map]
      omega
    rw [List.getElem?_eq_none h1, List.getElem?_eq_none h2]

lemma sliceStart_T {P T : ℕ} (hT : 1 ≤ T) : sliceStart P T T = P := by
  unfold sliceStart
  exact Nat.mul_div_cancel_left P (by omega)

lemma sliceStart_le_P {P T j : ℕ} (hj : j ≤ T) (hT : 1 ≤ T) : sliceStart P T j ≤ P := by
  calc j * P / T ≤ T * P / T := Nat.div_le_div_right (Nat.mul_le_mul_right P hj)
    _ = P := Nat.mul_div_cancel_left P (by omega)

lemma sliceStop_eq_next {P T j : ℕ} (hT : 1 ≤ T) (hj : j < T) :
    sliceStop P T j = sliceStart P T (j + 1) := by
  unfold sliceStop
  by_cases h : j = T - 1
  · rw [if_pos h]
    have hj1 : j + 1 = T := by omega
    rw [hj1, sliceStart_T hT]
  · rw [if_neg h]
    rfl

lemma sliceStart_le_stop {P T j : ℕ} (hT : 1 ≤ T) (hj : j < T) :
    sliceStart P T j ≤ sliceStop P T j := by
  rw [sliceStop_eq_next hT hj]
  exact Nat.div_le_div_right (Nat.mul_le_mul_right P (by omega))

lemma sliceStop_le_P {P T j : ℕ} (hT : 1 ≤ T) (hj : j < T) : sliceStop P T j ≤ P := by
  rw [sliceStop_eq_next hT hj]
  exact sliceStart_le_P (by omega) hT

/-- The slices handed to workers `j, j+1, …, T-1` tile the index range
from `sliceStart P T j` to `P`. -/
lemma slices_flatten (f : ℕ → Score) (pop : List ℕ) {P T : ℕ} (hT : 1 ≤ T) :
    ∀ r j, j + r = T →
      ((List.range' j r).map
        (fun jj => scoreList f pop (sliceStart P T jj) (sliceStop P T jj))).flatten
        = scoreList f pop (sliceStart P T j) P := by
  intro r
  induction r with
  | zero =>
    intro j hj
    have : j = T := by omega
    subst this
    rw [sliceStart_T hT]
    simp [scoreList]
  | succ r ih =>
    intro j hj
    have hjT : j < T := by omega
    rw [List.range'_succ, List.map_cons, List.flatten_cons, ih (j + 1) (by omega),
      ← sliceStop_eq_next hT hjT]
    exact scoreList_append f pop (sliceStart_le_stop hT hjT) (sliceStop_le_P hT hjT)

lemma Process_subset {H : AlgoScore → AlgoScore → Int} {f : ℕ → Score} {pop : List ℕ}
    {a b s : ℕ} {glob : Heap} {gst : Stats} {glob' : Heap} {gst' : Stats}
    (hp : Process H f pop a b s glob gst = some (glob', gst')) :
    (∀ x ∈ glob'.items, x ∈ glob.items ∨ x ∈ scoreList f pop a b) ∧ glob'.cap = glob.cap := by
  unfold Process at hp
  set slice := scoreList f pop a b with hslice
  set loc := slice.foldl (Heap.Insert H) ⟨s, []⟩ with hloc
  cases hpop : loc.popN s with
  | none => rw [hpop] at hp; cases hp
  | some pr =>
    obtain ⟨popped, rest⟩ := pr
    rw [hpop] at hp
    simp only [Option.some.injEq, Prod.mk.injEq] at hp
    obtain ⟨hg, _⟩ := hp
    subst hg
    constructor
    · intro x hx
      rcases mem_foldl_Insert hx with h1 | h1
      · exact Or.inl h1
      · have hpopped : popped = loc.items.take s := (popN_spec hpop).1
        have hxl : x ∈ loc.items := by
          rw [hpopped] at h1
          exact List.take_subset _ _ h1
        rcases mem_foldl_Insert hxl with h2 | h2
        · simp at h2
        · exact Or.inr h2
    · exact foldl_Insert_cap H popped glob

lemma Process_headBest {f : ℕ → Score} {pop : List ℕ} {a b s : ℕ} {glob : Heap}
    {gst : Stats} {glob' : Heap} {gst' : Stats} {S : List AlgoScore}
    (hp : Process maxScoreHeap f pop a b s glob gst = some (glob', gst'))
    (hs : 1 ≤ s) (hcap : 1 ≤ glob.cap) (hb : HeadBest glob S) :
    HeadBest glob' (S ++ scoreList f pop a b) := by
  unfold Process at hp
  set slice := scoreList f pop a b with hslice
  set loc := slice.foldl (Heap.Insert maxScoreHeap) ⟨s, []⟩ with hloc
  have hlocBest : HeadBest loc slice := by
    have := headBest_foldl (h := ⟨s, []⟩) (S := []) (L := slice) (by simpa using hs)
      (headBest_empty s)
    simpa using this
  cases hpop : loc.popN s with
  | none => rw [hpop] at hp; cases hp
  | some pr =>
    obtain ⟨popped, rest⟩ := pr
    rw [hpop] at hp
    simp only [Option.some.injEq, Prod.mk.injEq] at hp
    obtain ⟨hg, _⟩ := hp
    subst hg
    obtain ⟨hpopped, _, _, hplen⟩ := popN_spec hpop
    have hlocne : loc.items ≠ [] := by
      intro hnil
      rw [hpopped, hnil, List.take_nil] at hplen
      simp at hplen
      omega
    obtain ⟨m, t, hmt⟩ := List.exists_cons_of_ne_nil hlocne
    have hmBest : IsBest slice m := by
      unfold HeadBest at hlocBest
      rw [hmt] at hlocBest
      exact hlocBest
    have hmmem : m ∈ popped := by
      obtain ⟨s1, hs1⟩ : ∃ s1, s = s1 + 1 := ⟨s - 1, by omega⟩
      rw [hpopped, hmt, hs1, List.take_succ_cons]
      exact List.mem_cons_self m _
    have hgb : HeadBest (popped.foldl (Heap.Insert maxScoreHeap) glob) (S ++ popped) :=
      headBest_foldl hcap hb
    have hne : popped ≠ [] := by
      intro hnil
      rw [hnil] at hplen
      simp at hplen
      omega
    unfold HeadBest at hgb ⊢
    cases hgi : (popped.foldl (Heap.Insert maxScoreHeap) glob).items with
    | nil =>
      rw [hgi] at hgb
      rcases List.append_eq_nil.mp hgb with ⟨_, h2⟩
      exact absurd h2 hne
    | cons g0 gt =>
      rw [hgi] at hgb
      have hg0m : algoScoreSort g0 m = false := hgb m (List.mem_append_right S hmmem)
      exact isBest_append (isBest_of_append_left hgb) (isBest_extend hg0m hmBest)

lemma runWorkersAux_subset {H : AlgoScore → AlgoScore → Int} {f : ℕ → Score}
    {pop : List ℕ} {P T s : ℕ} :
    ∀ (r j : ℕ) (g : Heap) (st : Stats) (g' : Heap) (st' : Stats),
      runWorkersAux H f pop P T s r j g st = some (g', st') →
      (∀ x ∈ g'.items, x ∈ g.items ∨
        x ∈ ((List.range' j r).map
          (fun jj => scoreList f pop (sliceStart P T jj) (sliceStop P T jj))).flatten) ∧
      g'.cap = g.cap := by
  intro r
  induction r with
  | zero =>
    intro j g st g' st' hr
    simp only [runWorkersAux, Option.some.injEq, Prod.mk.injEq] at hr
    obtain ⟨rfl, rfl⟩ := hr
    exact ⟨fun x hx => Or.inl hx, rfl⟩
  | succ r ih =>
    intro j g st g' st' hr
    simp only [runWorkersAux] at hr
    cases hp : Process H f pop (sliceStart P T j) (sliceStop P T j) s g st with
    | none => rw [hp] at hr; cases hr
    | some pr =>
      obtain ⟨g1, st1⟩ := pr
      rw [hp] at hr
      obtain ⟨hsub1, hcap1⟩ := Process_subset hp
      obtain ⟨hsub2, hcap2⟩ := ih (j + 1) g1 st1 g' st' hr
      refine ⟨?_, by rw [hcap2, hcap1]⟩
      intro x hx
      rw [List.range'_succ, List.map_cons, List.flatten_cons]
      rcases hsub2 x hx with h1 | h1
      · rcases hsub1 x h1 with h2 | h2
        · exact Or.inl h2
        · exact Or.inr (List.mem_append_left _ h2)
      · exact Or.inr (List.mem_append_right _ h1)

lemma runWorkersAux_headBest {f : ℕ → Score} {pop : List ℕ} {P T s : ℕ} :
    ∀ (r j : ℕ) (g : Heap) (st : Stats) (S : List AlgoScore) (g' : Heap) (st' : Stats),
      runWorkersAux maxScoreHeap f pop P T s r j g st = some (g', st') →
      1 ≤ s → 1 ≤ g.cap → HeadBest g S →
      HeadBest g' (S ++ ((List.range' j r).map
        (fun jj => scoreList f pop (sliceStart P T jj) (sliceStop P T jj))).flatten) := by
  intro r
  induction r with
  | zero =>
    intro j g st S g' st' hr hs hcap hb
    simp only [runWorkersAux, Option.some.injEq, Prod.mk.injEq] at hr
    obtain ⟨rfl, rfl⟩ := hr
    simpa using hb
  | succ r ih =>
    intro j g st S g' st' hr hs hcap hb
    simp only [runWorkersAux] at hr
    cases hp : Process maxScoreHeap f pop (sliceStart P T j) (sliceStop P T j) s g st with
    | none => rw [hp] at hr; cases hr
    | some pr =>
      obtain ⟨g1, st1⟩ := pr
      rw [hp] at hr
      have hcap1 : 1 ≤ g1.cap := by
        rw [(Process_subset hp).2]
        exact hcap
      have hb1 : HeadBest g1 (S ++ scoreList f pop (sliceStart P T j) (sliceStop P T j)) :=
        Process_headBest hp hs hcap hb
      have := ih (j + 1) g1 st1 _ g' st' hr hs hcap1 hb1
      rw [List.range'_succ, List.map_cons, List.flatten_cons]
      simpa [List.append_assoc] using this

/-! ## Per-generation evaluation -/

lemma evalGeneration_struct {H : AlgoScore → AlgoScore → Int} {f : ℕ → Score}
    {pop : List ℕ} {P T s : ℕ} {asl : List AlgoScore} {b : AlgoScore} {st : Stats}
    (he : evalGeneration H f pop P T s = some (asl, b, st)) :
    asl.length = s ∧ maxElem asl = some b ∧ b ∈ asl ∧ IsBest asl b ∧
      1 ≤ s ∧ 1 ≤ T ∧ 1 ≤ P ∧ (∀ x ∈ asl, x ∈ scoreList f pop 0 P) := by
  unfold evalGeneration at he
  cases hw : runGenWorkers H f pop P T s with
  | none => rw [hw] at he; cases he
  | some pr =>
    obtain ⟨g, st0⟩ := pr
    rw [hw] at he
    dsimp only at he
    cases hpop : g.popN s with
    | none => rw [hpop] at he; cases he
    | some pr2 =>
      obtain ⟨asl0, rest⟩ := pr2
      rw [hpop] at he
      dsimp only at he
      cases hmax : maxElem asl0 with
      | none => rw [hmax] at he; cases he
      | some b0 =>
        rw [hmax] at he
        dsimp only at he
        simp only [Option.some.injEq, Prod.mk.injEq] at he
        obtain ⟨rfl, rfl, rfl⟩ := he
        obtain ⟨htake, _, _, hlen⟩ := popN_spec hpop
        obtain ⟨hbmem, hbbest⟩ := maxElem_spec hmax
        have haslne : asl0 ≠ [] := by
          intro hnil
          rw [hnil] at hmax
          cases hmax
        have hs : 1 ≤ s := by
          rw [← hlen]
          exact List.length_pos.mpr haslne
        have hT : 1 ≤ T := by
          by_contra hT0
          have hT0' : T = 0 := by omega
          rw [runGenWorkers, hT0'] at hw
          simp only [runWorkersAux, Option.some.injEq, Prod.mk.injEq] at hw
          obtain ⟨hg, _⟩ := hw
          have : g.items.length < s := by
            rw [← hg]
            simpa using hs
          rw [popN_none this] at hpop
          cases hpop
        have hsub : ∀ x ∈ asl0, x ∈ scoreList f pop 0 P := by
          intro x hx
          have hxg : x ∈ g.items := by
            rw [htake] at hx
            exact List.take_subset _ _ hx
          obtain ⟨hsub0, _⟩ := runWorkersAux_subset T 0 ⟨s, []⟩ ⟨0, 0, 0⟩ g st0 hw
          rcases hsub0 x hxg with h1 | h1
          · simp at h1
          · rw [slices_flatten f pop hT T 0 (by omega)] at h1
            have h0 : sliceStart P T 0 = 0 := by
              simp [sliceStart]
            rw [h0] at h1
            exact h1
        have hP : 1 ≤ P := by
          obtain ⟨idx, _, hidx, _⟩ := mem_scoreList (hsub b0 hbmem)
          omega
        exact ⟨hlen, hmax, hbmem, hbbest, hs, hT, hP, hsub⟩

lemma evalGeneration_best {f : ℕ → Score} {pop : List ℕ} {P T s : ℕ}
    {asl : List AlgoScore} {b : AlgoScore} {st : Stats}
    (he : evalGeneration maxScoreHeap f pop P T s = some (asl, b, st)) :
    IsBest (scoreList f pop 0 P) b ∧ b ∈ scoreList f pop 0 P := by
  obtain ⟨hlen, hmaxE, hbmem, hbbest, hs, hT, hP, hsub⟩ := evalGeneration_struct he
  unfold evalGeneration at he
  cases hw : runGenWorkers maxScoreHeap f pop P T s with
  | none => rw [hw] at he; cases he
  | some pr =>
    obtain ⟨g, st0⟩ := pr
    rw [hw] at he
    dsimp only at he
    cases hpop : g.popN s with
    | none => rw [hpop] at he; cases he
    | some pr2 =>
      obtain ⟨asl0, rest⟩ := pr2
      rw [hpop] at he
      dsimp only at he
      cases hmax : maxElem asl0 with
      | none => rw [hmax] at he; cases he
      | some b0 =>
        rw [hmax] at he
        dsimp only at he
        simp only [Option.some.injEq, Prod.mk.injEq] at he
        obtain ⟨rfl, rfl, rfl⟩ := he
        obtain ⟨htake, _, _, hlen0⟩ := popN_spec hpop
        have hgb : HeadBest g ([] ++ ((List.range' 0 T).map
            (fun jj => scoreList f pop (sliceStart P T jj) (sliceStop P T jj))).flatten) :=
          runWorkersAux_headBest T 0 ⟨s, []⟩ ⟨0, 0, 0⟩ [] g st0 hw hs
            (by simpa using hs) (headBest_empty s)
        rw [List.nil_append, slices_flatten f pop hT T 0 (by omega)] at hgb
        have h0 : sliceStart P T 0 = 0 := by
          simp [sliceStart]
        rw [h0] at hgb
        have hgne : g.items ≠ [] := by
          intro hnil
          rw [htake, hnil, List.take_nil] at hlen0
          simp at hlen0
          omega
        obtain ⟨g0, gt, hg0⟩ := List.exists_cons_of_ne_nil hgne
        have hg0best : IsBest (scoreList f pop 0 P) g0 := by
          unfold HeadBest at hgb
          rw [hg0] at hgb
          exact hgb
        have hg0mem : g0 ∈ asl0 := by
          obtain ⟨s1, hs1⟩ : ∃ s1, s = s1 + 1 := ⟨s - 1, by omega⟩
          rw [htake, hg0, hs1, List.take_succ_cons]
          exact List.mem_cons_self g0 _
        exact ⟨isBest_extend (hbbest g0 hg0mem) hg0best, hsub b0 hbmem⟩

/-! ## Seeding and breeding -/

lemma initPopulation_none_iff {seeds : List ℕ} {P c0 : ℕ} (hP : 1 ≤ P) :
    initPopulation seeds P c0 = none ↔ seeds = [] := by
  cases seeds with
  | nil =>
    have hP0 : P ≠ 0 := by omega
    simp [initPopulation, hP0]
  | cons a t => simp [initPopulation]

lemma initPopulation_spec {seeds : List ℕ} {P c0 : ℕ} {q : PopBuild}
    (hne : seeds ≠ []) (hq : initPopulation seeds P c0 = some q) :
    q.newpop = (List.range P).map (fun j => c0 + j) ∧
      q.parents = (List.range P).map (fun j => (seeds.getD (j % seeds.length) 0, c0 + j)) ∧
      q.destroyed = seeds ∧ q.counter = c0 + P := by
  cases seeds with
  | nil => exact absurd rfl hne
  | cons a t =>
    simp only [initPopulation, Option.some.injEq] at hq
    rw [← hq]
    exact ⟨rfl, rfl, rfl, rfl⟩

lemma initPopulation_length {seeds : List ℕ} {P c0 : ℕ} {q : PopBuild}
    (hq : initPopulation seeds P c0 = some q) : q.newpop.length = P := by
  cases seeds with
  | nil =>
    by_cases hP : P = 0
    · rw [initPopulation, if_pos hP] at hq
      simp only [Option.some.injEq] at hq
      rw [← hq, hP]
      rfl
    · rw [initPopulation, if_neg hP] at hq
      cases hq
  | cons a t =>
    simp only [initPopulation, Option.some.injEq] at hq
    rw [← hq]
    simp

lemma breedPopulation_length (P : ℕ) (best : AlgoScore) (succ : List AlgoScore)
    (oldPop : List ℕ) (c0 s : ℕ) :
    (breedPopulation P best succ oldPop c0 s).newpop.length = P := by
  simp [breedPopulation]

lemma breedPopulation_zero {P : ℕ} (hP : 1 ≤ P) (best : AlgoScore)
    (succ : List AlgoScore) (oldPop : List ℕ) (c0 s : ℕ) :
    (breedPopulation P best succ oldPop c0 s).newpop[0]? = some best.algo := by
  unfold breedPopulation
  rw [List.getElem?_map, List.getElem?_range (by omega)]
  simp

lemma breedPopulation_slot {P : ℕ} (best : AlgoScore) (succ : List AlgoScore)
    (oldPop : List ℕ) (c0 s : ℕ) {j : ℕ} (hj1 : 1 ≤ j) (hjP : j < P) :
    (breedPopulation P best succ oldPop c0 s).newpop[j]? = some (c0 + (j - 1)) := by
  unfold breedPopulation
  rw [List.getElem?_map, List.getElem?_range hjP]
  have : j ≠ 0 := by omega
  simp [this]

lemma breedPopulation_parent {P : ℕ} (best : AlgoScore) (succ : List AlgoScore)
    (oldPop : List ℕ) (c0 s : ℕ) {j : ℕ} (hj1 : 1 ≤ j) (hjP : j < P) :
    (breedPopulation P best succ oldPop c0 s).parents[j - 1]? =
      some ((succ.getD (j % s) ⟨0, ⟨false, 0⟩⟩).algo, c0 + (j - 1)) := by
  unfold breedPopulation
  rw [List.getElem?_map, List.getElem?_range (by omega)]
  have : j - 1 + 1 = j := by omega
  simp [this]

lemma breedPopulation_destroyed_mem (P : ℕ) (best : AlgoScore) (succ : List AlgoScore)
    (oldPop : List ℕ) (c0 s : ℕ) (a : ℕ) :
    a ∈ (breedPopulation P best succ oldPop c0 s).destroyed ↔
      a ∈ oldPop ∧ a ≠ best.algo := by
  simp [breedPopulation, List.mem_filter]

/-! ## One generation of the loop -/

lemma genStep_spec {H : AlgoScore → AlgoScore → Int} {f : ℕ → Score} {seeds : List ℕ}
    {P s T i : ℕ} {pop : List ℕ} {c : ℕ} {best? : Option AlgoScore}
    {succ : List AlgoScore} {pa pb : ℚ} {e : TraceEntry} {pop' : List ℕ} {c' : ℕ}
    (hg : genStep H f seeds P s T i pop c best? succ pa pb = some (e, pop', c')) :
    e.index = i ∧ pop'.length = P ∧ e.evaluated = pop'.map (fun a => ⟨a, f a⟩) ∧
      e.successors.length = s ∧ maxElem e.successors = some e.best ∧
      e.best ∈ e.successors ∧ IsBest e.successors e.best ∧
      (∀ x ∈ e.successors, x ∈ e.evaluated) ∧
      e.pctAvg = pctChange pa e.stats.bar ∧ e.pctBest = pctChange pb e.best.score.score ∧
      1 ≤ s ∧ 1 ≤ P ∧
      (i ≠ 1 → ∃ b, best? = some b ∧ pop'[0]? = some b.algo ∧
        pop' = (breedPopulation P b succ pop c s).newpop ∧
        c' = (breedPopulation P b succ pop c s).counter) ∧
      (i = 1 → ∃ q, initPopulation seeds P c = some q ∧ pop' = q.newpop ∧ c' = q.counter) := by
  unfold genStep at hg
  by_cases hi : i = 1
  · rw [if_pos hi] at hg
    cases hInit : initPopulation seeds P c with
    | none => rw [hInit] at hg; cases hg
    | some q =>
      rw [hInit] at hg
      dsimp only [Option.map_some'] at hg
      cases he : evalGeneration H f q.newpop P T s with
      | none => rw [he] at hg; cases hg
      | some tr =>
        obtain ⟨asl, b, st⟩ := tr
        rw [he] at hg
        dsimp only at hg
        simp only [Option.some.injEq, Prod.mk.injEq] at hg
        obtain ⟨he1, rfl, rfl⟩ := hg
        obtain ⟨hlen, hmax, hbmem, hbbest, hs, hT, hP, hsub⟩ := evalGeneration_struct he
        have hpl : q.newpop.length = P := initPopulation_length hInit
        subst he1
        refine ⟨rfl, hpl, rfl, hlen, hmax, hbmem, hbbest, ?_, rfl, rfl, hs, hP,
          fun hne => absurd hi hne, fun _ => ⟨q, rfl, rfl, rfl⟩⟩
        intro x hx
        have := hsub x hx
        rw [← hpl, scoreList_eq_map] at this
        exact this
  · rw [if_neg hi] at hg
    cases hbq : best? with
    | none => rw [hbq] at hg; cases hg
    | some b =>
      rw [hbq] at hg
      dsimp only [Option.map_some'] at hg
      cases he : evalGeneration H f (breedPopulation P b succ pop c s).newpop P T s with
      | none => rw [he] at hg; cases hg
      | some tr =>
        obtain ⟨asl, b2, st⟩ := tr
        rw [he] at hg
        dsimp only at hg
        simp only [Option.some.injEq, Prod.mk.injEq] at hg
        obtain ⟨he1, rfl, rfl⟩ := hg
        obtain ⟨hlen, hmax, hbmem, hbbest, hs, hT, hP, hsub⟩ := evalGeneration_struct he
        have hpl : (breedPopulation P b succ pop c s).newpop.length = P :=
          breedPopulation_length P b succ pop c s
        subst he1
        refine ⟨rfl, hpl, rfl, hlen, hmax, hbmem, hbbest, ?_, rfl, rfl, hs, hP,
          fun _ => ⟨b, rfl, breedPopulation_zero hP b succ pop c s, rfl, rfl⟩,
          fun h1 => absurd h1 hi⟩
        intro x hx
        have hmem := hsub x hx
        set np := (breedPopulation P b succ pop c s).newpop with hnp
        rw [← hpl, scoreList_eq_map] at hmem
        exact hmem

lemma genStep_best {f : ℕ → Score} {seeds : List ℕ} {P s T i : ℕ} {pop : List ℕ}
    {c : ℕ} {best? : Option AlgoScore} {succ : List AlgoScore} {pa pb : ℚ}
    {e : TraceEntry} {pop' : List ℕ} {c' : ℕ}
    (hg : genStep maxScoreHeap f seeds P s T i pop c best? succ pa pb = some (e, pop', c')) :
    IsBest e.evaluated e.best ∧ e.best ∈ e.evaluated := by
  obtain ⟨_, hpl, heval, _, _, _, _, _, _, _, _, _, _, _⟩ := genStep_spec hg
  unfold genStep at hg
  by_cases hi : i = 1
  · rw [if_pos hi] at hg
    cases hInit : initPopulation seeds P c with
    | none => rw [hInit] at hg; cases hg
    | some q =>
      rw [hInit] at hg
      dsimp only [Option.map_some'] at hg
      cases he : evalGeneration maxScoreHeap f q.newpop P T s with
      | none => rw [he] at hg; cases hg
      | some tr =>
        obtain ⟨asl, b, st⟩ := tr
        rw [he] at hg
        dsimp only at hg
        simp only [Option.some.injEq, Prod.mk.injEq] at hg
        obtain ⟨he1, rfl, rfl⟩ := hg
        obtain ⟨hbest, hbmem⟩ := evalGeneration_best he
        have hpl' : q.newpop.length = P := initPopulation_length hInit
        subst he1
        rw [← hpl', scoreList_eq_map] at hbest hbmem
        exact ⟨hbest, hbmem⟩
  · rw [if_neg hi] at hg
    cases hbq : best? with
    | none => rw [hbq] at hg; cases hg
    | some b =>
      rw [hbq] at hg
      dsimp only [Option.map_some'] at hg
      cases he : evalGeneration maxScoreHeap f (breedPopulation P b succ pop c s).newpop P T s with
      | none => rw [he] at hg; cases hg
      | some tr =>
        obtain ⟨asl, b2, st⟩ := tr
        rw [he] at hg
        dsimp only at hg
        simp only [Option.some.injEq, Prod.mk.injEq] at hg
        obtain ⟨he1, rfl, rfl⟩ := hg
        obtain ⟨hbest, hbmem⟩ := evalGeneration_best he
        have hpl' : (breedPopulation P b succ pop c s).newpop.length = P :=
          breedPopulation_length P b succ pop c s
        subst he1
        set np := (breedPopulation P b succ pop c s).newpop with hnp
        rw [← hpl', scoreList_eq_map] at hbest hbmem
        exact ⟨hbest, hbmem⟩

/-! ## The generational loop -/

/-- Every scored pair evaluated across a run's trace. -/
def allEval (tr : List TraceEntry) : List AlgoScore :=
  (tr.map TraceEntry.evaluated).flatten

lemma allEval_nil : allEval [] = [] := rfl

lemma allEval_append (a b : List TraceEntry) :
    allEval (a ++ b) = allEval a ++ allEval b := by
  simp [allEval]

lemma allEval_singleton (e : TraceEntry) : allEval [e] = e.evaluated := by
  simp [allEval]

/-- Structural facts holding of every recorded generation. -/
def EntryOk (f : ℕ → Score) (P s : ℕ) (e : TraceEntry) : Prop :=
  e.evaluated.length = P ∧ e.successors.length = s ∧
    maxElem e.successors = some e.best ∧ e.best ∈ e.successors ∧
    IsBest e.successors e.best ∧ (∀ x ∈ e.successors, x ∈ e.evaluated) ∧
    (∀ x ∈ e.evaluated, x.score = f x.algo)

lemma genStep_entryOk {H : AlgoScore → AlgoScore → Int} {f : ℕ → Score} {seeds : List ℕ}
    {P s T i : ℕ} {pop : List ℕ} {c : ℕ} {best? : Option AlgoScore}
    {succ : List AlgoScore} {pa pb : ℚ} {e : TraceEntry} {pop' : List ℕ} {c' : ℕ}
    (hg : genStep H f seeds P s T i pop c best? succ pa pb = some (e, pop', c')) :
    EntryOk f P s e := by
  obtain ⟨_, hpl, heval, hslen, hmax, hbmem, hbbest, hsub, _, _, _, _, _, _⟩ := genStep_spec hg
  refine ⟨?_, hslen, hmax, hbmem, hbbest, hsub, ?_⟩
  · rw [heval, List.length_map, hpl]
  · intro x hx
    rw [heval] at hx
    obtain ⟨a, _, rfl⟩ := List.mem_map.mp hx
    rfl

lemma simLoop_struct {H : AlgoScore → AlgoScore → Int} {C : List AlgoScore → ℕ → Bool}
    {f : ℕ → Score} {seeds : List ℕ} {P s T : ℕ} :
    ∀ (r i : ℕ) (pop : List ℕ) (c : ℕ) (best? : Option AlgoScore)
      (succ : List AlgoScore) (pa pb : ℚ) (trace : List TraceEntry)
      (w : AlgoScore) (tr' : List TraceEntry),
      1 ≤ i →
      simLoop H C f seeds P s T r i pop c best? succ pa pb trace = some (w, tr') →
      ∃ tnew, tr' = trace ++ tnew ∧ tnew.length ≤ r ∧ (tnew = [] → r = 0) ∧
        (∀ k e, tnew[k]? = some e → e.index = i + k ∧ EntryOk f P s e ∧
          (k + 1 < tnew.length → C e.successors e.index = false)) ∧
        (∀ k e e', tnew[k]? = some e → tnew[k + 1]? = some e' →
          e'.evaluated[0]? = some e.best) ∧
        (tnew.length < r → ∃ el, tnew.getLast? = some el ∧ C el.successors el.index = true) ∧
        (∀ e0, tnew[0]? = some e0 →
          e0.pctAvg = pctChange pa e0.stats.bar ∧
          e0.pctBest = pctChange pb e0.best.score.score) ∧
        (∀ b, best? = some b → b.score = f b.algo → 2 ≤ i →
          ∀ e0, tnew[0]? = some e0 → e0.evaluated[0]? = some b) := by
  intro r
  induction r with
  | zero =>
    intro i pop c best? succ pa pb trace w tr' hi hrun
    simp only [simLoop] at hrun
    cases hm : maxElem succ with
    | none => rw [hm] at hrun; cases hrun
    | some m =>
      rw [hm] at hrun
      simp only [Option.map_some', Option.some.injEq, Prod.mk.injEq] at hrun
      obtain ⟨rfl, rfl⟩ := hrun
      refine ⟨[], by simp, by simp, fun _ => rfl, ?_, ?_, ?_, ?_, ?_⟩
      · intro k e hk
        simp at hk
      · intro k e e' hk
        simp at hk
      · intro h
        simp at h
      · intro e0 h0
        simp at h0
      · intro b hb hbs hi2 e0 h0
        simp at h0
  | succ r ih =>
    intro i pop c best? succ pa pb trace w tr' hi hrun
    simp only [simLoop] at hrun
    cases hg : genStep H f seeds P s T i pop c best? succ pa pb with
    | none => rw [hg] at hrun; cases hrun
    | some trip =>
      obtain ⟨e, pop', c'⟩ := trip
      rw [hg] at hrun
      dsimp only at hrun
      obtain ⟨hidx, hpl, heval, hslen, hmax, hbmem, hbbest, hsub, hpctA, hpctB, hs, hP,
        hbreed, hinit⟩ := genStep_spec hg
      have hEntry : EntryOk f P s e := genStep_entryOk hg
      have hbridgeE : ∀ b, best? = some b → b.score = f b.algo → 2 ≤ i →
          e.evaluated[0]? = some b := by
        intro b hb hbs hi2
        obtain ⟨b', hb', hslot, _, _⟩ := hbreed (by omega)
        have hbb : b' = b := by
          rw [hb] at hb'
          exact (Option.some.inj hb').symm
        rw [hbb] at hslot
        rw [heval, List.getElem?_map, hslot]
        simp only [Option.map_some', Option.some.injEq]
        rw [← hbs]
      by_cases hfire : C e.successors e.index = true
      · rw [if_pos hfire] at hrun
        simp only [Option.some.injEq, Prod.mk.injEq] at hrun
        obtain ⟨rfl, rfl⟩ := hrun
        refine ⟨[e], rfl, by simp, by simp, ?_, ?_, ?_, ?_, ?_⟩
        · intro k e2 hk
          cases k with
          | zero =>
            simp only [List.getElem?_cons_zero, Option.some.injEq] at hk
            subst hk
            refine ⟨by simp [hidx], hEntry, ?_⟩
            intro hcon
            simp at hcon
          | succ k =>
            simp at hk
        · intro k e2 e3 hk hk1
          simp at hk1
        · intro _
          exact ⟨e, rfl, hfire⟩
        · intro e0 h0
          simp only [List.getElem?_cons_zero, Option.some.injEq] at h0
          subst h0
          exact ⟨hpctA, hpctB⟩
        · intro b hb hbs hi2 e0 h0
          simp only [List.getElem?_cons_zero, Option.some.injEq] at h0
          subst h0
          exact hbridgeE b hb hbs hi2
      · rw [if_neg hfire] at hrun
        obtain ⟨tnew', htr', hlen', hnil', hentries', hpairs', hlast', hpct', hbridge'⟩ :=
          ih (i + 1) pop' c' (some e.best) e.successors e.stats.bar e.best.score.score
            (trace ++ [e]) w tr' (by omega) hrun
        have hfireF : C e.successors e.index = false := by
          revert hfire
          cases (C e.successors e.index) <;> simp
        refine ⟨e :: tnew', ?_, ?_, ?_, ?_, ?_, ?_, ?_, ?_⟩
        · rw [htr']
          simp
        · simp only [List.length_cons]
          omega
        · intro h
          simp at h
        · intro k e2 hk
          cases k with
          | zero =>
            simp only [List.getElem?_cons_zero, Option.some.injEq] at hk
            subst hk
            exact ⟨by simp [hidx], hEntry, fun _ => hfireF⟩
          | succ k =>
            simp only [List.getElem?_cons_succ] at hk
            obtain ⟨hidx2, hok2, hnl2⟩ := hentries' k e2 hk
            refine ⟨by omega, hok2, ?_⟩
            intro hlt
            simp only [List.length_cons] at hlt
            exact hnl2 (by omega)
        · intro k e2 e3 hk hk1
          cases k with
          | zero =>
            simp only [List.getElem?_cons_zero, Option.some.injEq] at hk
            subst hk
            simp only [List.getElem?_cons_succ] at hk1
            have hbsc : e.best.score = f e.best.algo :=
              hEntry.2.2.2.2.2.2 e.best (hEntry.2.2.2.2.2.1 e.best hEntry.2.2.2.1)
            exact hbridge' e.best rfl hbsc (by omega) e3 hk1
          | succ k =>
            simp only [List.getElem?_cons_succ] at hk hk1
            exact hpairs' k e2 e3 hk hk1
        · intro hlt
          have hlt' : tnew'.length < r := by
            simp only [List.length_cons] at hlt
            omega
          obtain ⟨el, hl, hf⟩ := hlast' hlt'
          have hne : tnew' ≠ [] := by
            intro hnil
            rw [hnil] at hl
            cases hl
          obtain ⟨x, xs, rfl⟩ := List.exists_cons_of_ne_nil hne
          exact ⟨el, by rw [List.getLast?_cons_cons]; exact hl, hf⟩
        · intro e0 h0
          simp only [List.getElem?_cons_zero, Option.some.injEq] at h0
          subst h0
          exact ⟨hpctA, hpctB⟩
        · intro b hb hbs hi2 e0 h0
          simp only [List.getElem?_cons_zero, Option.some.injEq] at h0
          subst h0
          exact hbridgeE b hb hbs hi2

lemma simLoop_best {C : List AlgoScore → ℕ → Bool} {f : ℕ → Score} {seeds : List ℕ}
    {P s T : ℕ} :
    ∀ (r i : ℕ) (pop : List ℕ) (c : ℕ) (best? : Option AlgoScore)
      (succ : List AlgoScore) (pa pb : ℚ) (trace : List TraceEntry)
      (w : AlgoScore) (tr' : List TraceEntry),
      simLoop maxScoreHeap C f seeds P s T r i pop c best? succ pa pb trace = some (w, tr') →
      ((i = 1 ∧ trace = []) ∨
        (2 ≤ i ∧ ∃ b, best? = some b ∧ b.score = f b.algo ∧
          IsBest (allEval trace) b ∧ b ∈ allEval trace ∧ maxElem succ = some b)) →
      IsBest (allEval tr') w ∧ (tr' ≠ [] → w ∈ allEval tr') := by
  intro r
  induction r with
  | zero =>
    intro i pop c best? succ pa pb trace w tr' hrun hinv
    simp only [simLoop] at hrun
    cases hm : maxElem succ with
    | none => rw [hm] at hrun; cases hrun
    | some m =>
      rw [hm] at hrun
      simp only [Option.map_some', Option.some.injEq, Prod.mk.injEq] at hrun
      obtain ⟨rfl, rfl⟩ := hrun
      rcases hinv with ⟨_, rfl⟩ | ⟨hi2, b, hb, hbs, hbBest, hbMem, hm2⟩
      · refine ⟨?_, fun h => absurd rfl h⟩
        rw [allEval_nil]
        exact isBest_nil m
      · have hmb : m = b := by
          rw [hm] at hm2
          exact Option.some.inj hm2
        subst hmb
        exact ⟨hbBest, fun _ => hbMem⟩
  | succ r ih =>
    intro i pop c best? succ pa pb trace w tr' hrun hinv
    simp only [simLoop] at hrun
    cases hg : genStep maxScoreHeap f seeds P s T i pop c best? succ pa pb with
    | none => rw [hg] at hrun; cases hrun
    | some trip =>
      obtain ⟨e, pop', c'⟩ := trip
      rw [hg] at hrun
      dsimp only at hrun
      obtain ⟨hidx, hpl, heval, hslen, hmax, hbmem, hbbest, hsub, _, _, hs, hP,
        hbreed, hinit⟩ := genStep_spec hg
      obtain ⟨hbestEval, hbestMem⟩ := genStep_best hg
      have hbsc : e.best.score = f e.best.algo := by
        rw [heval] at hbestMem
        obtain ⟨a, _, ha⟩ := List.mem_map.mp hbestMem
        rw [← ha]
      have hi1 : 1 ≤ i := by
        rcases hinv with ⟨h1, _⟩ | ⟨h2, _⟩ <;> omega
      have hchain : IsBest (allEval (trace ++ [e])) e.best ∧
          e.best ∈ allEval (trace ++ [e]) := by
        rcases hinv with ⟨hi1, rfl⟩ | ⟨hi2, b, hb, hbs2, hbBest, hbMem, _⟩
        · rw [List.nil_append, allEval_singleton]
          exact ⟨hbestEval, hbestMem⟩
        · obtain ⟨b', hb', hslot, _, _⟩ := hbreed (by omega)
          have hbb : b' = b := by
            rw [hb] at hb'
            exact (Option.some.inj hb').symm
          rw [hbb] at hslot
          have hbInE : b ∈ e.evaluated := by
            have h0 : e.evaluated[0]? = some b := by
              rw [heval, List.getElem?_map, hslot]
              simp only [Option.map_some', Option.some.injEq]
              rw [← hbs2]
            exact List.getElem?_mem h0
          rw [allEval_append, allEval_singleton]
          exact ⟨isBest_append (isBest_extend (hbestEval b hbInE) hbBest) hbestEval,
            List.mem_append_right _ hbestMem⟩
      by_cases hfire : C e.successors e.index = true
      · rw [if_pos hfire] at hrun
        simp only [Option.some.injEq, Prod.mk.injEq] at hrun
        obtain ⟨rfl, rfl⟩ := hrun
        exact ⟨hchain.1, fun _ => hchain.2⟩
      · rw [if_neg hfire] at hrun
        exact ih (i + 1) pop' c' (some e.best) e.successors e.stats.bar
          e.best.score.score (trace ++ [e]) w tr' hrun
          (Or.inr ⟨by omega, e.best, rfl, hbsc, hchain.1, hchain.2, hmax⟩)

/-! ## Slice sizes and heap fullness -/

lemma slice0_len {P T : ℕ} (hT : 1 ≤ T) :
    sliceStop P T 0 - sliceStart P T 0 = P / T := by
  unfold sliceStart sliceStop
  by_cases h : (0 : ℕ) = T - 1
  · have hT1 : T = 1 := by omega
    rw [if_pos h, hT1]
    simp
  · rw [if_neg h]
    simp

lemma sliceLen_ge {P T j : ℕ} (hT : 1 ≤ T) (hj : j < T) :
    P / T ≤ sliceStop P T j - sliceStart P T j := by
  unfold sliceStart sliceStop
  by_cases h : j = T - 1
  · rw [if_pos h]
    have h1 : (T - 1) * P / T + P / T ≤ P := by
      calc (T - 1) * P / T + P / T ≤ ((T - 1) * P + P) / T := Nat.add_div_le_add_div _ _ _
        _ = T * P / T := by
            congr 1
            have : T - 1 + 1 = T := by omega
            calc (T - 1) * P + P = (T - 1 + 1) * P := by ring
              _ = T * P := by rw [this]
        _ = P := Nat.mul_div_cancel_left P (by omega)
    subst h
    omega
  · rw [if_neg h]
    have h1 : j * P / T + P / T ≤ (j + 1) * P / T := by
      calc j * P / T + P / T ≤ (j * P + P) / T := Nat.add_div_le_add_div _ _ _
        _ = (j + 1) * P / T := by
            congr 1
            ring
    omega

lemma Process_some_of_fits {H : AlgoScore → AlgoScore → Int} {f : ℕ → Score}
    {pop : List ℕ} {a b s : ℕ} {glob : Heap} {gst : Stats}
    (hfit : s ≤ b - a) (hcap : glob.cap = s) (hlen : glob.items.length ≤ s) :
    ∃ g' st', Process H f pop a b s glob gst = some (g', st') ∧
      g'.items.length = min (glob.items.length + s) s ∧ g'.cap = s := by
  have hll : ((scoreList f pop a b).foldl (Heap.Insert H) ⟨s, []⟩).items.length
      = min (b - a) s := by
    rw [foldl_Insert_length (by simp)]
    simp [scoreList_length]
  have hmin : min (b - a) s = s := by omega
  obtain ⟨popped, rest, hpop⟩ :=
    popN_isSome (h := (scoreList f pop a b).foldl (Heap.Insert H) ⟨s, []⟩) (n := s)
      (by rw [hll, hmin])
  obtain ⟨_, _, _, hplen⟩ := popN_spec hpop
  refine ⟨popped.foldl (Heap.Insert H) glob,
    mergeStats gst (welfordList ((scoreList f pop a b).map (fun as => as.score.score))),
    ?_, ?_, ?_⟩
  · unfold Process
    rw [hpop]
  · rw [foldl_Insert_length (by omega), hplen, hcap]
  · rw [foldl_Insert_cap, hcap]

lemma Process_none_of_underfits {H : AlgoScore → AlgoScore → Int} {f : ℕ → Score}
    {pop : List ℕ} {a b s : ℕ} {glob : Heap} {gst : Stats}
    (hfit : b - a < s) :
    Process H f pop a b s glob gst = none := by
  have hll : ((scoreList f pop a b).foldl (Heap.Insert H) ⟨s, []⟩).items.length
      = min (b - a) s := by
    rw [foldl_Insert_length (by simp)]
    simp [scoreList_length]
  have hnone := popN_none (h := (scoreList f pop a b).foldl (Heap.Insert H) ⟨s, []⟩)
    (n := s) (by omega)
  unfold Process
  rw [hnone]

lemma runWorkersAux_full {H : AlgoScore → AlgoScore → Int} {f : ℕ → Score}
    {pop : List ℕ} {P T s : ℕ} (hT : 1 ≤ T) (hs : s ≤ P / T) :
    ∀ r j, j + r = T → ∀ (g : Heap) (st : Stats), g.cap = s → g.items.length ≤ s →
      ∃ g' st', runWorkersAux H f pop P T s r j g st = some (g', st') ∧
        g'.items.length = min (g.items.length + r * s) s ∧ g'.cap = s := by
  intro r
  induction r with
  | zero =>
    intro j hj g st hcap hlen
    exact ⟨g, st, rfl, by omega, hcap⟩
  | succ r ih =>
    intro j hj g st hcap hlen
    have hj' : j < T := by omega
    have hfit : s ≤ sliceStop P T j - sliceStart P T j :=
      le_trans hs (sliceLen_ge hT hj')
    obtain ⟨g1, st1, hp, hg1len, hg1cap⟩ :=
      @Process_some_of_fits H f pop (sliceStart P T j) (sliceStop P T j) s g st hfit hcap hlen
    obtain ⟨g', st', hrec, hg'len, hg'cap⟩ :=
      ih (j + 1) (by omega) g1 st1 hg1cap (by omega)
    refine ⟨g', st', ?_, ?_, hg'cap⟩
    · simp only [runWorkersAux]
      rw [hp]
      exact hrec
    · rw [hg'len, hg1len]
      have hmul : (r + 1) * s = r * s + s := by ring
      omega

lemma runGenWorkers_none_of_underfits {H : AlgoScore → AlgoScore → Int} {f : ℕ → Score}
    {pop : List ℕ} {P T s : ℕ} (hT : 1 ≤ T) (hs : P / T < s) :
    runGenWorkers H f pop P T s = none := by
  obtain ⟨T', hT'⟩ : ∃ T', T = T' + 1 := ⟨T - 1, by omega⟩
  have h0 : sliceStop P T 0 - sliceStart P T 0 < s := by
    rw [slice0_len hT]
    exact hs
  unfold runGenWorkers
  rw [hT']
  simp only [runWorkersAux]
  rw [← hT', Process_none_of_underfits h0]

/-! ## The claims -/

/-- C1 (amended to the maximizing heap instantiation): in every
maximizing-heap run of simulate whose generational loop reaches numCycles
without the termination policy firing (in particular under patientComplete),
the returned ScoredIndividual is maximal under the ScoreOrdering total order
(success beats non-success; among equal success the higher numeric value
wins) over all (individual, score) pairs evaluated in every generation of
the run, and is itself one of those pairs.  The minimizing instantiation
violates the original claim; see the counterexample. -/
theorem simulate_max_returns_best_found {C : List AlgoScore → ℕ → Bool} {f : ℕ → Score}
    {seeds : List ℕ} {P s minW maxT N c0 : ℕ} {w : AlgoScore} {tr : List TraceEntry}
    (hrun : simulate maxScoreHeap C f seeds P s minW maxT N c0 = some (w, tr))
    (_hnofire : ∀ e ∈ tr, C e.successors e.index = false) :
    (∀ p ∈ allEval tr, algoScoreSort w p = false) ∧ (tr ≠ [] → w ∈ allEval tr) := by
  unfold simulate at hrun
  have h := simLoop_best N 1 (List.replicate P 0) c0 none
    (List.replicate s ⟨0, ⟨false, 0⟩⟩) 0 0 [] w tr hrun (Or.inl ⟨rfl, rfl⟩)
  exact ⟨h.1, h.2⟩

/-- C1 counterexample: under the minimizing heap instantiation a full
patient run returns the individual scored {false, 1} although the same
run evaluated the pair ⟨1, {false, 2}⟩, which outranks it under the
ScoreOrdering total order — the returned individual is not maximal over
the evaluated pairs, refuting the claim for the minimizing instantiation. -/
theorem simulate_min_not_best_found :
    simulate minScoreHeap patientComplete
        (fun n => if n = 0 then ⟨false, 1⟩ else ⟨false, 2⟩) [5] 2 1 2 4 1 0
      = some (⟨0, ⟨false, 1⟩⟩,
          [⟨1, [⟨0, ⟨false, 1⟩⟩, ⟨1, ⟨false, 2⟩⟩], [⟨0, ⟨false, 1⟩⟩], ⟨0, ⟨false, 1⟩⟩,
            ⟨1 / 2, 3 / 2, 2⟩, none, none⟩]) ∧
      (⟨1, ⟨false, 2⟩⟩ : AlgoScore) ∈ allEval
          [⟨1, [⟨0, ⟨false, 1⟩⟩, ⟨1, ⟨false, 2⟩⟩], [⟨0, ⟨false, 1⟩⟩], ⟨0, ⟨false, 1⟩⟩,
            ⟨1 / 2, 3 / 2, 2⟩, none, none⟩] ∧
      algoScoreSort ⟨0, ⟨false, 1⟩⟩ ⟨1, ⟨false, 2⟩⟩ = true := by
  refine ⟨?_, by decide, by decide⟩
  norm_num [simulate, simLoop, genStep, initPopulation, breedPopulation, evalGeneration,
      runGenWorkers, runWorkersAux, Process, scoreList, welfordList, welfordStep, mergeStats,
      Heap.Insert, Heap.popN, insertRanked, maxElem, numThreadsOf, sliceStart, sliceStop,
      pctChange, List.range'_succ, List.range_eq_range', algoScoreSort, minScoreHeap,
      maxScoreHeap]

/-- Witness for C1: a concrete full maximizing-heap patient run; the
returned pair {false, 2} is not sorted below either evaluated pair. -/
theorem simulate_max_returns_best_found_witness :
    algoScoreSort ⟨1, ⟨false, 2⟩⟩ ⟨0, ⟨false, 1⟩⟩ = false ∧
      algoScoreSort ⟨1, ⟨false, 2⟩⟩ ⟨1, ⟨false, 2⟩⟩ = false := by
  have h := simulate_max_returns_best_found
    (show simulate maxScoreHeap patientComplete
        (fun n => if n = 0 then ⟨false, 1⟩ else ⟨false, 2⟩) [5] 2 1 2 4 1 0
      = some (⟨1, ⟨false, 2⟩⟩,
          [⟨1, [⟨0, ⟨false, 1⟩⟩, ⟨1, ⟨false, 2⟩⟩], [⟨1, ⟨false, 2⟩⟩], ⟨1, ⟨false, 2⟩⟩,
            ⟨1 / 2, 3 / 2, 2⟩, none, none⟩]) by
      norm_num [simulate, simLoop, genStep, initPopulation, breedPopulation, evalGeneration,
      runGenWorkers, runWorkersAux, Process, scoreList, welfordList, welfordStep, mergeStats,
      Heap.Insert, Heap.popN, insertRanked, maxElem, numThreadsOf, sliceStart, sliceStop,
      pctChange, List.range'_succ, List.range_eq_range', algoScoreSort, minScoreHeap,
      maxScoreHeap])
    (by decide)
  exact ⟨h.1 ⟨0, ⟨false, 1⟩⟩ (by decide), h.1 ⟨1, ⟨false, 2⟩⟩ (by decide)⟩

/-- C2: for every partitioning of a fixed list of scores into disjoint
contiguous slices (a list of slices whose concatenation is the whole list)
and every order in which the workers merge (any permutation of the slice
list), folding the locked pairwise merge over the per-slice single-pass
Welford accumulators equals the accumulator of one sequential pass over the
whole list, over exact arithmetic; and on single-pass accumulators the
merge is commutative and associative. -/
theorem welford_merge_partition_independent (ss ss' : List (List ℚ))
    (hperm : ss.Perm ss') :
    ((ss'.map welfordList).foldl mergeStats ⟨0, 0, 0⟩ = welfordList ss.flatten) ∧
      (∀ a b : List ℚ, mergeStats (welfordList a) (welfordList b)
        = mergeStats (welfordList b) (welfordList a)) ∧
      (∀ a b c : List ℚ,
        mergeStats (mergeStats (welfordList a) (welfordList b)) (welfordList c)
          = mergeStats (welfordList a) (mergeStats (welfordList b) (welfordList c))) := by
  refine ⟨?_, ?_, ?_⟩
  · have h0 : (⟨0, 0, 0⟩ : Stats) = statsOf [] := by
      simp [statsOf]
    rw [h0, foldl_mergeStats_statsOf, List.nil_append, welfordList_eq_statsOf]
    exact (statsOf_perm hperm.flatten).symm
  · intro a b
    simp only [welfordList_eq_statsOf, mergeStats_statsOf]
    exact statsOf_perm List.perm_append_comm
  · intro a b c
    simp only [welfordList_eq_statsOf, mergeStats_statsOf]
    rw [List.append_assoc]

/-- Witness for C2: the two slices [1, 2] and [3], merged in the reversed
order, give the same statistics as one pass over [1, 2, 3]. -/
theorem welford_merge_partition_independent_witness :
    ([[(3 : ℚ)], [1, 2]].map welfordList).foldl mergeStats ⟨0, 0, 0⟩
      = welfordList ([[(1 : ℚ), 2], [3]].flatten) :=
  (welford_merge_partition_independent [[(1 : ℚ), 2], [3]] [[(3 : ℚ)], [1, 2]]
    (by decide)).1

/-- C3 (amended): the worker-thread count computed by simulate equals
min(populationSize / minThreadWorkloadSize, maxNumThreads); it is at least 1
whenever minThreadWorkloadSize ≤ populationSize and maxNumThreads ≥ 1, but it
is 0 — not 1 — whenever populationSize < minThreadWorkloadSize. -/
theorem numThreads_eq_min (P minW maxT : ℕ) :
    numThreadsOf P minW maxT = min (P / minW) maxT ∧
      (1 ≤ maxT → minW ≤ P → 1 ≤ minW → 1 ≤ numThreadsOf P minW maxT) ∧
      (1 ≤ minW → P < minW → numThreadsOf P minW maxT = 0) := by
  unfold numThreadsOf
  dsimp only
  refine ⟨?_, ?_, ?_⟩
  · by_cases h : P / minW > maxT
    · rw [if_pos h, Nat.min_eq_right (le_of_lt h)]
    · rw [if_neg h, Nat.min_eq_left (by omega)]
  · intro hmaxT hminWP hminW
    have hdiv : 1 ≤ P / minW := (Nat.one_le_div_iff (by omega)).mpr hminWP
    by_cases h : P / minW > maxT
    · rw [if_pos h]
      exact hmaxT
    · rw [if_neg h]
      exact hdiv
  · intro hminW hPltW
    have hdiv : P / minW = 0 := Nat.div_eq_of_lt hPltW
    by_cases h : P / minW > maxT
    · rw [if_pos h]
      omega
    · rw [if_neg h]
      exact hdiv

/-- C3 counterexample: the all-positive configuration populationSize = 1,
minThreadWorkloadSize = 2, maxNumThreads = 4 yields 0 worker threads, not
at least 1 as claimed. -/
theorem numThreads_not_always_pos :
    numThreadsOf 1 2 4 = 0 ∧ ¬ 1 ≤ numThreadsOf 1 2 4 := by
  decide

/-- Witness for C3: concrete instances of all three amended conjuncts. -/
theorem numThreads_eq_min_witness :
    numThreadsOf 4 2 8 = min (4 / 2) 8 ∧ 1 ≤ numThreadsOf 4 2 8 ∧
      numThreadsOf 1 2 8 = 0 :=
  ⟨(numThreads_eq_min 4 2 8).1,
   (numThreads_eq_min 4 2 8).2.1 (by decide) (by decide) (by decide),
   (numThreads_eq_min 1 2 8).2.2 (by decide) (by decide)⟩

/-- C4 (code bug): on generation 1 the previous mean and previous best are
the zero-initialized values, and the report block evaluates the
percentage-delta computations against them anyway: in every run the first
trace entry's delta fields hit the division-by-zero marker (prev = 0)
instead of being skipped or reported as n/a. -/
theorem generation1_pct_division_by_zero {H : AlgoScore → AlgoScore → Int}
    {C : List AlgoScore → ℕ → Bool} {f : ℕ → Score} {seeds : List ℕ}
    {P s minW maxT N c0 : ℕ} {w : AlgoScore} {tr : List TraceEntry}
    (hrun : simulate H C f seeds P s minW maxT N c0 = some (w, tr))
    {e0 : TraceEntry} (h0 : tr[0]? = some e0) :
    e0.pctAvg = none ∧ e0.pctBest = none := by
  unfold simulate at hrun
  obtain ⟨tnew, htr, _, _, _, _, _, hpct, _⟩ :=
    simLoop_struct N 1 (List.replicate P 0) c0 none
      (List.replicate s ⟨0, ⟨false, 0⟩⟩) 0 0 [] w tr (by omega) hrun
  rw [htr, List.nil_append] at h0
  obtain ⟨hA, hB⟩ := hpct e0 h0
  rw [hA, hB]
  constructor <;> simp [pctChange]

/-- Witness for C4: a concrete one-generation run whose recorded entry has
both delta fields at the division-by-zero marker. -/
theorem generation1_pct_division_by_zero_witness :
    (⟨1, [⟨0, ⟨false, 2⟩⟩], [⟨0, ⟨false, 2⟩⟩], ⟨0, ⟨false, 2⟩⟩, ⟨0, 2, 1⟩,
        none, none⟩ : TraceEntry).pctAvg = none ∧
      (⟨1, [⟨0, ⟨false, 2⟩⟩], [⟨0, ⟨false, 2⟩⟩], ⟨0, ⟨false, 2⟩⟩, ⟨0, 2, 1⟩,
        none, none⟩ : TraceEntry).pctBest = none :=
  generation1_pct_division_by_zero
    (show simulate maxScoreHeap patientComplete (fun _ => ⟨false, 2⟩) [5] 1 1 1 4 1 0
      = some (⟨0, ⟨false, 2⟩⟩,
          [⟨1, [⟨0, ⟨false, 2⟩⟩], [⟨0, ⟨false, 2⟩⟩], ⟨0, ⟨false, 2⟩⟩, ⟨0, 2, 1⟩,
            none, none⟩]) by
      norm_num [simulate, simLoop, genStep, initPopulation, breedPopulation, evalGeneration,
      runGenWorkers, runWorkersAux, Process, scoreList, welfordList, welfordStep, mergeStats,
      Heap.Insert, Heap.popN, insertRanked, maxElem, numThreadsOf, sliceStart, sliceStop,
      pctChange, List.range'_succ, List.range_eq_range', algoScoreSort, minScoreHeap,
      maxScoreHeap])
    rfl

/-- C5: the elitism invariant.  Breeding a generation i ≥ 2 produces a
population of length populationSize whose slot 0 is the literal previous
best individual (the same id, distinct from every freshly derived child);
every slot j ≥ 1 holds the freshly derived child of
successorSet[j % successorSize] as recorded in the derivation log; exactly
the old population members other than the elite are destroyed, and the
elite is not destroyed.  Moreover in every run each generation's evaluated
population has length populationSize, and each next generation's slot 0
holds the previous generation's best. -/
theorem elitism_invariant :
    (∀ (P : ℕ) (best : AlgoScore) (succ : List AlgoScore) (oldPop : List ℕ) (c0 s : ℕ),
      1 ≤ P →
      (breedPopulation P best succ oldPop c0 s).newpop.length = P ∧
        (breedPopulation P best succ oldPop c0 s).newpop[0]? = some best.algo ∧
        (∀ j, 1 ≤ j → j < P →
          (breedPopulation P best succ oldPop c0 s).newpop[j]? = some (c0 + (j - 1)) ∧
          (breedPopulation P best succ oldPop c0 s).parents[j - 1]? =
            some ((succ.getD (j % s) ⟨0, ⟨false, 0⟩⟩).algo, c0 + (j - 1)) ∧
          (best.algo < c0 →
            (breedPopulation P best succ oldPop c0 s).newpop[j]? ≠ some best.algo)) ∧
        (∀ a, a ∈ (breedPopulation P best succ oldPop c0 s).destroyed ↔
          (a ∈ oldPop ∧ a ≠ best.algo)) ∧
        best.algo ∉ (breedPopulation P best succ oldPop c0 s).destroyed) ∧
    (∀ (H : AlgoScore → AlgoScore → Int) (C : List AlgoScore → ℕ → Bool) (f : ℕ → Score)
      (seeds : List ℕ) (P s minW maxT N c0 : ℕ) (w : AlgoScore) (tr : List TraceEntry),
      simulate H C f seeds P s minW maxT N c0 = some (w, tr) →
      (∀ e ∈ tr, e.evaluated.length = P) ∧
        (∀ k e e', tr[k]? = some e → tr[k + 1]? = some e' →
          e'.evaluated[0]? = some e.best)) := by
  constructor
  · intro P best succ oldPop c0 s hP
    refine ⟨breedPopulation_length P best succ oldPop c0 s,
      breedPopulation_zero hP best succ oldPop c0 s, ?_, ?_, ?_⟩
    · intro j hj1 hjP
      refine ⟨breedPopulation_slot best succ oldPop c0 s hj1 hjP,
        breedPopulation_parent best succ oldPop c0 s hj1 hjP, ?_⟩
      intro hfresh hcon
      rw [breedPopulation_slot best succ oldPop c0 s hj1 hjP] at hcon
      have := Option.some.inj hcon
      omega
    · intro a
      exact breedPopulation_destroyed_mem P best succ oldPop c0 s a
    · intro hcon
      rw [breedPopulation_destroyed_mem] at hcon
      exact hcon.2 rfl
  · intro H C f seeds P s minW maxT N c0 w tr hrun
    unfold simulate at hrun
    obtain ⟨tnew, htr, _, _, hentries, hpairs, _, _, _⟩ :=
      simLoop_struct N 1 (List.replicate P 0) c0 none
        (List.replicate s ⟨0, ⟨false, 0⟩⟩) 0 0 [] w tr (by omega) hrun
    rw [htr, List.nil_append]
    constructor
    · intro e he
      obtain ⟨k, hk⟩ := List.getElem?_of_mem he
      exact (hentries k e hk).2.1.1
    · intro k e e' hk hk'
      exact hpairs k e e' hk hk'

/-- Witness for C5: a concrete breeding step (the elite id 5 survives into
slot 0 and is not destroyed; id 6 is destroyed) and a concrete run whose
single generation evaluates a population of the configured size. -/
theorem elitism_invariant_witness :
    (breedPopulation 2 ⟨5, ⟨true, 1⟩⟩ [⟨3, ⟨false, 0⟩⟩] [5, 6] 10 1).newpop[0]?
        = some 5 ∧
      (5 : ℕ) ∉ (breedPopulation 2 ⟨5, ⟨true, 1⟩⟩ [⟨3, ⟨false, 0⟩⟩] [5, 6] 10 1).destroyed ∧
      (⟨1, [⟨0, ⟨false, 2⟩⟩], [⟨0, ⟨false, 2⟩⟩], ⟨0, ⟨false, 2⟩⟩, ⟨0, 2, 1⟩,
        none, none⟩ : TraceEntry).evaluated.length = 1 := by
  have h1 := elitism_invariant.1 2 ⟨5, ⟨true, 1⟩⟩ [⟨3, ⟨false, 0⟩⟩] [5, 6] 10 1 (by omega)
  have h2 := (elitism_invariant.2 maxScoreHeap patientComplete (fun _ => ⟨false, 2⟩)
    [5] 1 1 1 4 1 0 ⟨0, ⟨false, 2⟩⟩
    [⟨1, [⟨0, ⟨false, 2⟩⟩], [⟨0, ⟨false, 2⟩⟩], ⟨0, ⟨false, 2⟩⟩, ⟨0, 2, 1⟩, none, none⟩]
    (by
      norm_num [simulate, simLoop, genStep, initPopulation, breedPopulation, evalGeneration,
      runGenWorkers, runWorkersAux, Process, scoreList, welfordList, welfordStep, mergeStats,
      Heap.Insert, Heap.popN, insertRanked, maxElem, numThreadsOf, sliceStart, sliceStop,
      pctChange, List.range'_succ, List.range_eq_range', algoScoreSort, minScoreHeap,
      maxScoreHeap])).1
  exact ⟨h1.2.1, h1.2.2.2.2, h2 _ (List.mem_singleton_self _)⟩

/-- C6: in every run, each generation's selected best is the maximum of the
drained successor set under the algoScoreSort ordering: it is a member
(the value of max_element) and no other successor outranks it, where a
successful member outranks an unsuccessful one and among equal success the
higher numeric value outranks. -/
theorem generation_best_is_max {H : AlgoScore → AlgoScore → Int}
    {C : List AlgoScore → ℕ → Bool} {f : ℕ → Score} {seeds : List ℕ}
    {P s minW maxT N c0 : ℕ} {w : AlgoScore} {tr : List TraceEntry}
    (hrun : simulate H C f seeds P s minW maxT N c0 = some (w, tr)) :
    ∀ e ∈ tr, maxElem e.successors = some e.best ∧ e.best ∈ e.successors ∧
      ∀ x ∈ e.successors,
        ¬ ((x.score.success = true ∧ e.best.score.success = false) ∨
           (x.score.success = e.best.score.success ∧
             e.best.score.score < x.score.score)) := by
  unfold simulate at hrun
  obtain ⟨tnew, htr, _, _, hentries, _, _, _, _⟩ :=
    simLoop_struct N 1 (List.replicate P 0) c0 none
      (List.replicate s ⟨0, ⟨false, 0⟩⟩) 0 0 [] w tr (by omega) hrun
  rw [htr, List.nil_append]
  intro e he
  obtain ⟨k, hk⟩ := List.getElem?_of_mem he
  obtain ⟨_, hok, _⟩ := hentries k e hk
  exact ⟨hok.2.2.1, hok.2.2.2.1,
    fun x hx => (algoScoreSort_eq_false_iff_not_outranks e.best x).mp
      (hok.2.2.2.2.1 x hx)⟩

/-- Witness for C6: in a concrete run the single generation's best is the
max_element of its successor set. -/
theorem generation_best_is_max_witness :
    maxElem [(⟨0, ⟨false, 2⟩⟩ : AlgoScore)] = some (⟨0, ⟨false, 2⟩⟩ : AlgoScore) := by
  have h := generation_best_is_max
    (show simulate maxScoreHeap patientComplete (fun _ => ⟨false, 2⟩) [5] 1 1 1 4 1 0
      = some (⟨0, ⟨false, 2⟩⟩,
          [⟨1, [⟨0, ⟨false, 2⟩⟩], [⟨0, ⟨false, 2⟩⟩], ⟨0, ⟨false, 2⟩⟩, ⟨0, 2, 1⟩,
            none, none⟩]) by
      norm_num [simulate, simLoop, genStep, initPopulation, breedPopulation, evalGeneration,
      runGenWorkers, runWorkersAux, Process, scoreList, welfordList, welfordStep, mergeStats,
      Heap.Insert, Heap.popN, insertRanked, maxElem, numThreadsOf, sliceStart, sliceStop,
      pctChange, List.range'_succ, List.range_eq_range', algoScoreSort, minScoreHeap,
      maxScoreHeap])
  exact (h _ (List.mem_singleton_self _)).1

/-- C7: both heap-ordering comparators satisfy the ordering contract: a
successful individual gets the strict three-way result against an
unsuccessful one irrespective of the numeric values in both variants; among
equal success the minimizing variant ranks the lower value better and the
maximizing variant the higher value better; equal success and equal value
compare as 0. -/
theorem heap_ordering_contract :
    ∀ (a b : ℕ) (v w : ℚ),
      (minScoreHeap ⟨a, ⟨true, v⟩⟩ ⟨b, ⟨false, w⟩⟩ = -1 ∧
        maxScoreHeap ⟨a, ⟨true, v⟩⟩ ⟨b, ⟨false, w⟩⟩ = -1 ∧
        minScoreHeap ⟨a, ⟨false, v⟩⟩ ⟨b, ⟨true, w⟩⟩ = 1 ∧
        maxScoreHeap ⟨a, ⟨false, v⟩⟩ ⟨b, ⟨true, w⟩⟩ = 1) ∧
      (∀ su : Bool, v < w →
        minScoreHeap ⟨a, ⟨su, v⟩⟩ ⟨b, ⟨su, w⟩⟩ = -1 ∧
        maxScoreHeap ⟨a, ⟨su, v⟩⟩ ⟨b, ⟨su, w⟩⟩ = 1 ∧
        minScoreHeap ⟨a, ⟨su, w⟩⟩ ⟨b, ⟨su, v⟩⟩ = 1 ∧
        maxScoreHeap ⟨a, ⟨su, w⟩⟩ ⟨b, ⟨su, v⟩⟩ = -1) ∧
      (∀ su : Bool,
        minScoreHeap ⟨a, ⟨su, v⟩⟩ ⟨b, ⟨su, v⟩⟩ = 0 ∧
        maxScoreHeap ⟨a, ⟨su, v⟩⟩ ⟨b, ⟨su, v⟩⟩ = 0) := by
  intro a b v w
  refine ⟨?_, ?_, ?_⟩
  · simp [minScoreHeap, maxScoreHeap]
  · intro su hvw
    cases su <;>
      simp [minScoreHeap, maxScoreHeap, hvw, hvw.asymm]
  · intro su
    cases su <;> simp [minScoreHeap, maxScoreHeap]

/-- Witness for C7: concrete equal-success comparisons with 1 < 2. -/
theorem heap_ordering_contract_witness :
    minScoreHeap ⟨0, ⟨true, 1⟩⟩ ⟨1, ⟨true, 2⟩⟩ = -1 ∧
      maxScoreHeap ⟨0, ⟨true, 1⟩⟩ ⟨1, ⟨true, 2⟩⟩ = 1 ∧
      minScoreHeap ⟨0, ⟨true, 2⟩⟩ ⟨1, ⟨true, 1⟩⟩ = 1 ∧
      maxScoreHeap ⟨0, ⟨true, 2⟩⟩ ⟨1, ⟨true, 1⟩⟩ = -1 :=
  (heap_ordering_contract 0 1 1 2).2.1 true (by norm_num)

/-- C8: greedyComplete returns true iff some member of the successor set
has success = true, and patientComplete returns false unconditionally;
consequently a greedy run never continues past a generation whose successor
set contains a success (every non-final generation is success-free, and a
stop before numCycles happens only at a successful one), while a patient
run always runs exactly numCycles generations. -/
theorem termination_policies :
    (∀ (succ : List AlgoScore) (i : ℕ),
      greedyComplete succ i = true ↔ ∃ as ∈ succ, as.score.success = true) ∧
      (∀ (succ : List AlgoScore) (i : ℕ), patientComplete succ i = false) ∧
      (∀ (H : AlgoScore → AlgoScore → Int) (f : ℕ → Score) (seeds : List ℕ)
        (P s minW maxT N c0 : ℕ) (w : AlgoScore) (tr : List TraceEntry),
        simulate H greedyComplete f seeds P s minW maxT N c0 = some (w, tr) →
        (∀ k e, tr[k]? = some e → k + 1 < tr.length →
          ∀ as ∈ e.successors, as.score.success = false) ∧
        (tr.length < N → ∃ el, tr.getLast? = some el ∧
          ∃ as ∈ el.successors, as.score.success = true)) ∧
      (∀ (H : AlgoScore → AlgoScore → Int) (f : ℕ → Score) (seeds : List ℕ)
        (P s minW maxT N c0 : ℕ) (w : AlgoScore) (tr : List TraceEntry),
        simulate H patientComplete f seeds P s minW maxT N c0 = some (w, tr) →
        tr.length = N) := by
  refine ⟨?_, fun _ _ => rfl, ?_, ?_⟩
  · intro succ i
    simp [greedyComplete, List.any_eq_true]
  · intro H f seeds P s minW maxT N c0 w tr hrun
    unfold simulate at hrun
    obtain ⟨tnew, htr, hlen, _, hentries, _, hlast, _, _⟩ :=
      simLoop_struct N 1 (List.replicate P 0) c0 none
        (List.replicate s ⟨0, ⟨false, 0⟩⟩) 0 0 [] w tr (by omega) hrun
    rw [htr, List.nil_append]
    constructor
    · intro k e hk hklt as hmem
      have hfalse : greedyComplete e.successors e.index = false :=
        (hentries k e hk).2.2 hklt
      simp only [greedyComplete, List.any_eq_false] at hfalse
      have := hfalse as hmem
      revert this
      cases as.score.success <;> simp
    · intro hlt
      obtain ⟨el, hel, hfire⟩ := hlast hlt
      refine ⟨el, hel, ?_⟩
      simpa [greedyComplete, List.any_eq_true] using hfire
  · intro H f seeds P s minW maxT N c0 w tr hrun
    unfold simulate at hrun
    obtain ⟨tnew, htr, hlen, _, _, _, hlast, _, _⟩ :=
      simLoop_struct N 1 (List.replicate P 0) c0 none
        (List.replicate s ⟨0, ⟨false, 0⟩⟩) 0 0 [] w tr (by omega) hrun
    rw [htr, List.nil_append]
    by_contra hne
    have hlt : tnew.length < N := by omega
    obtain ⟨el, _, hfire⟩ := hlast hlt
    cases hfire

/-- Witness for C8: greedyComplete fires on a successful successor set, and
a concrete patient run of one cycle records exactly one generation. -/
theorem termination_policies_witness :
    greedyComplete [(⟨0, ⟨true, 1⟩⟩ : AlgoScore)] 1 = true ∧
      ([⟨1, [⟨0, ⟨false, 2⟩⟩], [⟨0, ⟨false, 2⟩⟩], ⟨0, ⟨false, 2⟩⟩, ⟨0, 2, 1⟩,
        none, none⟩] : List TraceEntry).length = 1 := by
  constructor
  · exact (termination_policies.1 [⟨0, ⟨true, 1⟩⟩] 1).mpr
      ⟨⟨0, ⟨true, 1⟩⟩, List.mem_singleton_self _, rfl⟩
  · exact termination_policies.2.2.2 maxScoreHeap (fun _ => ⟨false, 2⟩) [5] 1 1 1 4 1 0
      ⟨0, ⟨false, 2⟩⟩ _ (by
        norm_num [simulate, simLoop, genStep, initPopulation, breedPopulation, evalGeneration,
      runGenWorkers, runWorkersAux, Process, scoreList, welfordList, welfordStep, mergeStats,
      Heap.Insert, Heap.popN, insertRanked, maxElem, numThreadsOf, sliceStart, sliceStop,
      pctChange, List.range'_succ, List.range_eq_range', algoScoreSort, minScoreHeap,
      maxScoreHeap])

/-- C9 (implicit; the heap is modelled from the spec, Heap.hpp not being
among the sources): a successful popN pops exactly the requested number of
elements regardless of how many were inserted; with at least one worker the
whole worker phase succeeds — leaving the global heap with exactly
successorSize retained elements, so the engine's successorSize pops succeed
too — exactly when populationSize / numThreads ≥ successorSize (every
worker's slice then holds at least successorSize individuals), and it
underflows (a Pop hits an empty structure) whenever
populationSize / numThreads < successorSize. -/
theorem worker_pop_discipline :
    (∀ (h : Heap) (n : ℕ) (l : List AlgoScore) (h' : Heap),
      h.popN n = some (l, h') → l.length = n) ∧
      (∀ (H : AlgoScore → AlgoScore → Int) (f : ℕ → Score) (pop : List ℕ) (P T s : ℕ),
        1 ≤ T →
        (s ≤ P / T → ∃ g st, runGenWorkers H f pop P T s = some (g, st) ∧
          g.items.length = s ∧ (g.popN s).isSome) ∧
        (P / T < s → runGenWorkers H f pop P T s = none)) := by
  constructor
  · intro h n l h' hp
    exact (popN_spec hp).2.2.2
  · intro H f pop P T s hT
    constructor
    · intro hs
      obtain ⟨g, st, hrun, hglen, _⟩ :=
        runWorkersAux_full hT hs T 0 (by omega) ⟨s, []⟩ ⟨0, 0, 0⟩ rfl (by simp)
      have hglen' : g.items.length = s := by
        rw [hglen]
        simp only [List.length_nil, Nat.zero_add]
        have : s ≤ T * s := Nat.le_mul_of_pos_left s (by omega)
        omega
      refine ⟨g, st, hrun, hglen', ?_⟩
      obtain ⟨l, h', hpop⟩ := popN_isSome (le_of_eq hglen'.symm)
      rw [hpop]
      rfl
    · intro hs
      exact runGenWorkers_none_of_underfits hT hs

/-- Witness for C9: a two-element population with one thread underflows a
successor size of 2 exactly when 2 exceeds the slice, and a concrete popN
pops exactly one element. -/
theorem worker_pop_discipline_witness :
    runGenWorkers maxScoreHeap (fun _ => ⟨false, 1⟩) [0] 1 1 2 = none ∧
      ([(⟨0, ⟨false, 1⟩⟩ : AlgoScore)].length = 1) := by
  constructor
  · exact (worker_pop_discipline.2 maxScoreHeap (fun _ => ⟨false, 1⟩) [0] 1 1 2
      (by decide)).2 (by decide)
  · exact worker_pop_discipline.1 ⟨5, [⟨0, ⟨false, 1⟩⟩, ⟨1, ⟨true, 2⟩⟩]⟩ 1
      [⟨0, ⟨false, 1⟩⟩] ⟨5, [⟨1, ⟨true, 2⟩⟩]⟩ (by decide)

/-- C10 (implicit): generation-1 seeding has the unstated precondition that
the seed set is non-empty — with a nonzero population and no seeds the
index seeds[j % numSeeds] is a modulo by zero (undefined behaviour,
surfaced as none); for every non-empty seed set, every population slot
j < populationSize receives a fresh individual (pairwise-distinct new ids,
disjoint from the live seeds) derived from seeds[j % numSeeds] as recorded
in the derivation log, and afterwards exactly the seed list — each seed
once — is destroyed. -/
theorem seeding_requires_seeds (seeds : List ℕ) (P c0 : ℕ) :
    (1 ≤ P → (initPopulation seeds P c0 = none ↔ seeds = [])) ∧
      (∀ q : PopBuild, seeds ≠ [] → initPopulation seeds P c0 = some q →
        q.newpop.length = P ∧ q.newpop.Nodup ∧
          (∀ j, j < P → q.newpop[j]? = some (c0 + j) ∧
            q.parents[j]? = some (seeds.getD (j % seeds.length) 0, c0 + j)) ∧
          q.destroyed = seeds ∧ q.counter = c0 + P ∧
          ((∀ a ∈ seeds, a < c0) → ∀ x ∈ q.newpop, x ∉ seeds)) := by
  constructor
  · intro hP
    exact initPopulation_none_iff hP
  · intro q hne hq
    obtain ⟨hpop, hpar, hdes, hcnt⟩ := initPopulation_spec hne hq
    refine ⟨by rw [hpop]; simp, ?_, ?_, hdes, hcnt, ?_⟩
    · rw [hpop]
      exact (List.nodup_range P).map (fun x y hxy => by omega)
    · intro j hj
      constructor
      · rw [hpop, List.getElem?_map, List.getElem?_range hj]
        rfl
      · rw [hpar, List.getElem?_map, List.getElem?_range hj]
        rfl
    · intro hlt x hx hxs
      rw [hpop] at hx
      obtain ⟨j, _, rfl⟩ := List.mem_map.mp hx
      have := hlt _ hxs
      omega

/-- Witness for C10: no seeds is rejected; one seed (id 7) populates two
slots with fresh ids 0 and 1 and is destroyed exactly once. -/
theorem seeding_requires_seeds_witness :
    initPopulation [] 2 0 = none ∧
      (⟨[0, 1], [(7, 0), (7, 1)], [7], 2⟩ : PopBuild).newpop.Nodup ∧
      (⟨[0, 1], [(7, 0), (7, 1)], [7], 2⟩ : PopBuild).destroyed = [7] := by
  have h1 := (seeding_requires_seeds [] 2 0).1 (by omega)
  have h2 := (seeding_requires_seeds [7] 2 0).2 ⟨[0, 1], [(7, 0), (7, 1)], [7], 2⟩
    (by simp) (by decide)
  exact ⟨h1.mpr rfl, h2.2.1, h2.2.2.2.1⟩

end Genetics
